import Mathlib

/-!
Verification development for the workflow parser and secure execution engine
(`workflows/parser/workflow_parser.py` and
`workflows/engine/secure_workflow_engine.py`).

The Python source is shallowly embedded: dictionaries become association
lists (`List (String × _)`) whose list order models Python's insertion
order, Python `int` becomes `Int`, YAML/JSON scalars become the `Json`
inductive below, exceptions become `Except`.  Floats never participate in
any computation here except being serialized, so they are carried as their
rendered numeral string (`Json.numLit`).  The module-level constants
`MAX_MEMORY_MB`, `MAX_CACHE_ENTRIES`, ... are referenced bare in the
source but defined on `SecurityConfig`; they are embedded with the
documented default values.
-/

namespace WorkflowSpec

/-- JSON-like values, standing for the loosely typed YAML/Python data the
parser and engine manipulate.  `numLit` carries a float's rendered numeral
(e.g. "0.0"), since floats are only ever serialized here, never computed
with. -/
inductive Json where
  | null : Json
  | bool (b : Bool) : Json
  | int (n : Int) : Json
  | numLit (s : String) : Json
  | str (s : String) : Json
  | arr (l : List Json) : Json
  | obj (l : List (String × Json)) : Json
deriving Repr

/-- Python truthiness of a value, as used by `if cached_result:` and
`bool(result)`. -/
def Json.truthy : Json → Bool
  | .null => false
  | .bool b => b
  | .int n => n ≠ 0
  | .numLit s => s ≠ "0.0" && s ≠ "0"
  | .str s => s ≠ ""
  | .arr l => !l.isEmpty
  | .obj l => !l.isEmpty

/-- Python `str()` of a scalar value (`"None"`, `"True"`, ...).  The
container cases render in a JSON-like style; no claim inspects them. -/
def Json.pyStr : Json → String
  | .null => "None"
  | .bool b => if b then "True" else "False"
  | .int n => toString n
  | .numLit s => s
  | .str s => s
  | .arr _ => "[...]"
  | .obj _ => "{...}"

/-- Errors raised by the parser (`WorkflowParseError` / `WorkflowValidationError`). -/
inductive WfError where
  | validation (msg : String) : WfError
  | parseErr (msg : String) : WfError
deriving Repr, DecidableEq

/-- `StepOutput` dataclass of `workflow_parser.py`. -/
structure StepOutputD where
  name : String
  type : Option String
  description : Option String
  from_source : Option String
deriving Repr

/-- `WorkflowInput` dataclass. -/
structure WInput where
  name : String
  type : Option String
  description : Option String
  required : Bool
  default : Option Json
  validation : Option Json
deriving Repr

/-- `WorkflowOutput` dataclass. -/
structure WOutput where
  name : String
  type : Option String
  description : Option String
  from_step : Option String
deriving Repr

/-- The non-recursive fields of the `WorkflowStep` dataclass, in source
declaration order.  `temperature` is the rendered float numeral. -/
structure StepCore where
  id : String
  type : String
  name : Option String := none
  description : Option String := none
  depends_on : List String := []
  when : Option String := none
  timeout : Int := 300
  retry : List (String × Json) := []
  cache : List (String × Json) := []
  inputs : List (String × Json) := []
  outputs : List (String × StepOutputD) := []
  command : Option String := none
  working_directory : Option String := none
  environment : List (String × String) := []
  prompt : Option String := none
  model : String := "claude-3-sonnet-20240229"
  security_profile : String := "restricted"
  use_cache : Bool := true
  max_tokens : Option Int := none
  temperature : String := "0.0"
  condition : Option String := none
  message : Option String := none
  on_failure : String := "fail"
  template : Option String := none
  output : Option String := none
  engine : String := "jinja2"
  url : Option String := none
  method : String := "POST"
  headers : List (String × String) := []
  body : Option String := none
deriving Repr

/-- `WorkflowStep`, with the recursive `then_steps` / `else_steps` of
conditional steps. -/
inductive Step where
  | mk (core : StepCore) (then_steps : List Step) (else_steps : List Step)
deriving Repr

def Step.core : Step → StepCore
  | .mk c _ _ => c

def Step.then_steps : Step → List Step
  | .mk _ t _ => t

def Step.else_steps : Step → List Step
  | .mk _ _ e => e

def Step.id (s : Step) : String := s.core.id
def Step.type (s : Step) : String := s.core.type
def Step.depends_on (s : Step) : List String := s.core.depends_on
def Step.cache (s : Step) : List (String × Json) := s.core.cache
def Step.inputs (s : Step) : List (String × Json) := s.core.inputs
def Step.condition (s : Step) : Option String := s.core.condition
def Step.message (s : Step) : Option String := s.core.message
def Step.on_failure (s : Step) : String := s.core.on_failure
def Step.when (s : Step) : Option String := s.core.when

/-- `depends_on` raw value: absent, a single string, a list, or another
YAML type (which `_parse_step` leaves as the default `[]`). -/
inductive RawDeps where
  | absent : RawDeps
  | one (s : String) : RawDeps
  | many (l : List String) : RawDeps
  | other : RawDeps
deriving Repr

/-- Raw (pre-parse) step data: the keys `_parse_step` reads via
`step_data.get`, with `none` for an absent key. -/
structure RawStepCore where
  id : Option String := none
  type : Option String := none
  name : Option String := none
  description : Option String := none
  when : Option String := none
  timeout : Option Int := none
  retry : List (String × Json) := []
  cache : List (String × Json) := []
  inputs : List (String × Json) := []
  depends_on : RawDeps := .absent
  outputs : List (String × Json) := []
  command : Option String := none
  working_directory : Option String := none
  environment : List (String × String) := []
  prompt : Option String := none
  model : Option String := none
  security_profile : Option String := none
  use_cache : Option Bool := none
  max_tokens : Option Int := none
  temperature : Option String := none
  condition : Option String := none
  message : Option String := none
  on_failure : Option String := none
  template : Option String := none
  output : Option String := none
  engine : Option String := none
  url : Option String := none
  method : Option String := none
  headers : List (String × String) := []
  body : Option String := none
deriving Repr

/-- Raw step with nested conditional branches. -/
inductive RawStep where
  | mk (core : RawStepCore) (then_steps : List RawStep) (else_steps : List RawStep)
deriving Repr

def RawStep.core : RawStep → RawStepCore
  | .mk c _ _ => c

def RawStep.then_steps : RawStep → List RawStep
  | .mk _ t _ => t

def RawStep.else_steps : RawStep → List RawStep
  | .mk _ _ e => e

def RawStep.id (r : RawStep) : Option String := r.core.id

/-- Raw `inputs` entry configuration. -/
structure RawInputCfg where
  type : Option String := none
  description : Option String := none
  required : Option Bool := none
  default : Option Json := none
  validation : Option Json := none
deriving Repr

/-- Raw `outputs` entry configuration (`from` is `fromRef`). -/
structure RawOutputCfg where
  type : Option String := none
  description : Option String := none
  fromRef : Option String := none
deriving Repr

/-- Raw workflow data dictionary handed to `parse_workflow_data`. -/
structure RawWorkflow where
  name : Option String := none
  version : Option String := none
  description : Option String := none
  author : Option String := none
  tags : List String := []
  environment : List (String × String) := []
  timeout : Option Int := none
  retry : List (String × Json) := []
  cache : List (String × Json) := []
  inputs : List (String × RawInputCfg) := []
  outputs : List (String × RawOutputCfg) := []
  steps : List RawStep := []
deriving Repr

/-- `WorkflowDefinition`, including the computed dependency graph and
execution order. -/
structure Workflow where
  name : String
  version : String
  description : Option String
  author : Option String
  tags : List String
  inputs : List (String × WInput)
  outputs : List (String × WOutput)
  environment : List (String × String)
  timeout : Int
  retry : List (String × Json)
  cache : List (String × Json)
  steps : List Step
  step_dependency_graph : List (String × List String)
  execution_order : List String
deriving Repr

/-- Python falsiness of an optional string (`None` or `""`). -/
def optFalsy : Option String → Bool
  | none => true
  | some s => s == ""

/-- Normalization of `depends_on` in `_parse_step`: a string becomes a
one-element list, a list is kept, anything else leaves the default `[]`. -/
def RawDeps.toList : RawDeps → List String
  | .absent => []
  | .one s => [s]
  | .many l => l
  | .other => []

/-- One `outputs` entry of `_parse_step`: a dict produces a `StepOutput`
from its keys, any other value produces a string-typed output. -/
def parseStepOutput (outName : String) (v : Json) : StepOutputD :=
  match v with
  | .obj fields =>
      { name := outName
        type := (fields.lookup "type").bind fun j =>
          match j with | .str s => some s | _ => none
        description := (fields.lookup "description").bind fun j =>
          match j with | .str s => some s | _ => none
        from_source := (fields.lookup "from").bind fun j =>
          match j with | .str s => some s | _ => none }
  | _ => { name := outName, type := some "string", description := none,
           from_source := some v.pyStr }

mutual

/-- `WorkflowParser._parse_step`: builds a `WorkflowStep`, validating the
required generic and type-specific fields, recursing into conditional
branches.  Raised exceptions become `Except.error`. -/
def parseStep : RawStep → Except WfError Step
  | .mk core thens elses =>
    if optFalsy core.id then .error (.validation "Step id is required")
    else
      let sid := core.id.getD ""
      if optFalsy core.type then
        .error (.validation s!"Step type is required for step {sid}")
      else
        let stype := core.type.getD ""
        let base : StepCore :=
          { id := sid, type := stype, name := core.name,
            description := core.description, when := core.when,
            timeout := core.timeout.getD 300, retry := core.retry,
            cache := core.cache, inputs := core.inputs,
            depends_on := core.depends_on.toList,
            outputs := core.outputs.map fun p => (p.1, parseStepOutput p.1 p.2) }
        if stype == "shell" then
          if optFalsy core.command then
            .error (.validation s!"Shell step {sid} requires command")
          else .ok (.mk { base with
            command := core.command,
            working_directory := core.working_directory,
            environment := core.environment } [] [])
        else if stype == "claude_code" then
          if optFalsy core.prompt then
            .error (.validation s!"Claude code step {sid} requires prompt")
          else .ok (.mk { base with
            prompt := core.prompt,
            model := core.model.getD "claude-3-sonnet-20240229",
            security_profile := core.security_profile.getD "restricted",
            use_cache := core.use_cache.getD true,
            max_tokens := core.max_tokens,
            temperature := core.temperature.getD "0.0" } [] [])
        else if stype == "assert" then
          if optFalsy core.condition then
            .error (.validation s!"Assert step {sid} requires condition")
          else .ok (.mk { base with
            condition := core.condition,
            message := core.message,
            on_failure := core.on_failure.getD "fail" } [] [])
        else if stype == "template" then
          if optFalsy core.template || optFalsy core.output then
            .error (.validation
              s!"Template step {sid} requires template and output")
          else .ok (.mk { base with
            template := core.template,
            output := core.output,
            engine := core.engine.getD "jinja2" } [] [])
        else if stype == "webhook" then
          if optFalsy core.url then
            .error (.validation s!"Webhook step {sid} requires url")
          else .ok (.mk { base with
            url := core.url,
            method := core.method.getD "POST",
            headers := core.headers,
            body := core.body } [] [])
        else if stype == "conditional" then
          if optFalsy core.condition then
            .error (.validation s!"Conditional step {sid} requires condition")
          else
            match parseStepList thens with
            | .error e => .error e
            | .ok ts =>
              match parseStepList elses with
              | .error e => .error e
              | .ok es =>
                .ok (.mk { base with condition := core.condition } ts es)
        else .ok (.mk base [] [])

/-- Parses a list of raw steps in order, propagating the first error. -/
def parseStepList : List RawStep → Except WfError (List Step)
  | [] => .ok []
  | r :: rs =>
    match parseStep r with
    | .error e => .error e
    | .ok s =>
      match parseStepList rs with
      | .error e => .error e
      | .ok ss => .ok (s :: ss)

end

/-! ### Dependency graph and Kahn's algorithm -/

/-- The step dependency graph: step id to the set of its dependencies,
as an insertion-ordered association list with deduplicated values
(Python uses a `dict` of `set`s). -/
abbrev Graph := List (String × List String)

def gkeys (g : Graph) : List String := g.map Prod.fst

/-- `graph[k]`, with `[]` for an absent key. -/
def depsOf (g : Graph) (k : String) : List String :=
  match g.find? (fun p => p.1 == k) with
  | some p => p.2
  | none => []

/-- `dict` assignment: updates the value in place if the key exists (its
position is kept), else appends. -/
def upsert (g : Graph) (k : String) (v : List String) : Graph :=
  if g.any (fun p => p.1 == k) then
    g.map (fun p => if p.1 == k then (k, v) else p)
  else g ++ [(k, v)]

/-- Python `set.add` accumulation over the `depends_on` list, checking each
dependency against the step-id set; the accumulated list is the set. -/
def collectDeps (sid : String) (stepIds : List String) :
    List String → List String → Except WfError (List String)
  | acc, [] => pure acc
  | acc, d :: ds =>
    if d ∈ stepIds then
      collectDeps sid stepIds (if d ∈ acc then acc else acc ++ [d]) ds
    else
      throw (.validation s!"Step {sid} depends on unknown step: {d}")

/-- One step of the `_build_dependency_graph` loop: validate and collect
the step's dependency set, then assign `graph[step.id]`. -/
def buildStepF (stepIds : List String) (g : Graph) (step : Step) :
    Except WfError Graph :=
  match collectDeps step.id stepIds [] step.depends_on with
  | .ok ds => .ok (upsert g step.id ds)
  | .error e => .error e

/-- `WorkflowParser._build_dependency_graph`. -/
def buildDependencyGraph (steps : List Step) : Except WfError Graph :=
  steps.foldlM (buildStepF (steps.map Step.id)) []

/-- `in_degree` association list lookup (all graph keys are present). -/
def lookupDeg (m : List (String × Int)) (k : String) : Int :=
  match m.find? (fun p => p.1 == k) with
  | some p => p.2
  | none => 0

/-- `in_degree[k] = v` (keys are unique, so the single entry is updated). -/
def setDeg (m : List (String × Int)) (k : String) (v : Int) : List (String × Int) :=
  m.map (fun p => if p.1 == k then (k, v) else p)

/-- The body of the inner `for step_id in workflow.step_dependency_graph`
loop of Kahn's algorithm: if the just-popped `cur` is a dependency of
`p.1`, decrement `p.1`'s in-degree and enqueue it on reaching zero. -/
def decF (cur : String) (st : List (String × Int) × List String)
    (p : String × List String) : List (String × Int) × List String :=
  if cur ∈ p.2 then
    let v := lookupDeg st.1 p.1 - 1
    (setDeg st.1 p.1 v, if v = 0 then st.2 ++ [p.1] else st.2)
  else st

/-- The inner decrement loop over all graph entries. -/
def decStep (g : Graph) (cur : String) (st : List (String × Int) × List String) :
    List (String × Int) × List String :=
  g.foldl (decF cur) st

/-- The `while queue` loop of `_compute_execution_order`.  The fuel only
bounds the number of pops; `kahn_pops_le` below shows `g.length` pops
always suffice, so the fuel case is never the one that stops the loop. -/
def kahnLoop (g : Graph) : Nat → List String → List (String × Int) →
    List String → List String
  | 0, _, _, acc => acc
  | _ + 1, [], _, acc => acc
  | fuel + 1, c :: rest, deg, acc =>
    let st := decStep g c (deg, rest)
    kahnLoop g fuel st.2 st.1 (acc ++ [c])

/-- `WorkflowParser._compute_execution_order`: Kahn's algorithm with the
cycle check `len(execution_order) != len(workflow.steps)`. -/
def computeExecutionOrder (g : Graph) (numSteps : Nat) :
    Except WfError (List String) :=
  let deg := g.map (fun p => (p.1, (p.2.length : Int)))
  let queue := (g.filter (fun p => p.2.length == 0)).map Prod.fst
  let order := kahnLoop g g.length queue deg []
  if order.length == numSteps then pure order
  else throw (.validation "Circular dependency detected in workflow steps")

/-- `WorkflowParser.parse_workflow_data` (the schema file is absent from
the tree, so the `jsonschema` branch is not taken).  Inputs and outputs
are parsed unconditionally (no checks can fail there); the step list,
dependency graph and execution order follow, each able to raise. -/
def parseWorkflowData (raw : RawWorkflow) : Except WfError Workflow :=
  if optFalsy raw.name then .error (.validation "Workflow name is required")
  else if optFalsy raw.version then
    .error (.validation "Workflow version is required")
  else if raw.steps.isEmpty then
    .error (.validation "Workflow must have at least one step")
  else
    match parseStepList raw.steps with
    | .error e => .error e
    | .ok steps =>
      match buildDependencyGraph steps with
      | .error e => .error e
      | .ok g =>
        match computeExecutionOrder g steps.length with
        | .error e => .error e
        | .ok order =>
          .ok { name := raw.name.getD "", version := raw.version.getD "",
                description := raw.description, author := raw.author,
                tags := raw.tags,
                inputs := raw.inputs.map fun p =>
                  (p.1, { name := p.1, type := p.2.type,
                          description := p.2.description,
                          required := p.2.required.getD false,
                          default := p.2.default,
                          validation := p.2.validation : WInput }),
                outputs := raw.outputs.map fun p =>
                  (p.1, { name := p.1, type := p.2.type,
                          description := p.2.description,
                          from_step := p.2.fromRef : WOutput }),
                environment := raw.environment,
                timeout := raw.timeout.getD 3600, retry := raw.retry,
                cache := raw.cache, steps := steps,
                step_dependency_graph := g, execution_order := order }

/-! ### Graph facts used by the correctness proofs -/

/-- Well-formedness facts that hold for every graph built by
`buildDependencyGraph`. -/
structure GoodGraph (g : Graph) : Prop where
  nodupKeys : (gkeys g).Nodup
  depsNodup : ∀ p ∈ g, (p.2 : List String).Nodup
  depsMem : ∀ p ∈ g, ∀ d ∈ p.2, d ∈ gkeys g

theorem mem_gkeys_of_mem {g : Graph} {p : String × List String} (h : p ∈ g) :
    p.1 ∈ gkeys g := List.mem_map_of_mem Prod.fst h

theorem exists_entry {g : Graph} {k : String} (h : k ∈ gkeys g) :
    ∃ p ∈ g, p.1 = k := by
  rcases List.mem_map.1 h with ⟨p, hp, hk⟩
  exact ⟨p, hp, hk⟩

theorem entry_eq_of_nodup {g : Graph} (hnd : (gkeys g).Nodup)
    {p q : String × List String} (hp : p ∈ g) (hq : q ∈ g) (h : p.1 = q.1) :
    p = q := by
  induction g with
  | nil => cases hp
  | cons a g ih =>
    rcases List.mem_cons.1 hp with hp1 | hp1 <;>
      rcases List.mem_cons.1 hq with hq1 | hq1
    · exact hp1.trans hq1.symm
    · exfalso
      subst hp1
      exact (List.nodup_cons.1 hnd).1 (h ▸ mem_gkeys_of_mem hq1)
    · exfalso
      subst hq1
      exact (List.nodup_cons.1 hnd).1 (h ▸ mem_gkeys_of_mem hp1)
    · exact ih (List.nodup_cons.1 hnd).2 hp1 hq1

theorem depsOf_eq_of_mem {g : Graph} (hnd : (gkeys g).Nodup)
    {p : String × List String} (hp : p ∈ g) : depsOf g p.1 = p.2 := by
  induction g with
  | nil => cases hp
  | cons a g ih =>
    rcases List.mem_cons.1 hp with hp1 | hp1
    · subst hp1
      simp [depsOf, List.find?]
    · have hne : a.1 ≠ p.1 := by
        intro h
        exact (List.nodup_cons.1 hnd).1 (h ▸ mem_gkeys_of_mem hp1)
      have : (a.1 == p.1) = false := beq_eq_false_iff_ne.2 hne
      simp only [depsOf, List.find?, this]
      exact ih (List.nodup_cons.1 hnd).2 hp1

theorem mem_gkeys_of_depsOf_ne {g : Graph} {k : String}
    (h : depsOf g k ≠ []) : k ∈ gkeys g := by
  by_contra hk
  apply h
  unfold depsOf
  cases hfind : g.find? (fun p => p.1 == k) with
  | none => rfl
  | some p =>
    exfalso
    have hmem := List.mem_of_find?_eq_some hfind
    have := List.find?_some hfind
    have : p.1 = k := by simpa using this
    exact hk (this ▸ mem_gkeys_of_mem hmem)

/-! ### Keep-first deduplication (Python `dict` key insertion order) -/

/-- Keep-first deduplication, mirroring repeated `dict` key insertion. -/
def dedupF (l : List String) : List String :=
  l.foldl (fun acc k => if k ∈ acc then acc else acc ++ [k]) []

theorem dedupF_aux_spec (l : List String) :
    ∀ acc : List String, acc.Nodup →
      ((l.foldl (fun acc k => if k ∈ acc then acc else acc ++ [k]) acc).Nodup ∧
       (∀ x, x ∈ l.foldl (fun acc k => if k ∈ acc then acc else acc ++ [k]) acc
          ↔ x ∈ acc ∨ x ∈ l) ∧
       (l.foldl (fun acc k => if k ∈ acc then acc else acc ++ [k]) acc).length
          ≤ acc.length + l.length ∧
       ((l.foldl (fun acc k => if k ∈ acc then acc else acc ++ [k]) acc).length
          = acc.length + l.length → l.Nodup ∧ ∀ x ∈ l, x ∉ acc)) := by
  induction l with
  | nil =>
    intro acc hacc
    exact ⟨hacc, by simp, by simp, fun _ => ⟨List.nodup_nil, by simp⟩⟩
  | cons k ks ih =>
    intro acc hacc
    simp only [List.foldl_cons]
    by_cases hk : k ∈ acc
    · simp only [if_pos hk]
      obtain ⟨h1, h2, h3, _⟩ := ih acc hacc
      refine ⟨h1, ?_, ?_, ?_⟩
      · intro x
        rw [h2]
        constructor
        · rintro (hx | hx)
          · exact Or.inl hx
          · exact Or.inr (List.mem_cons_of_mem _ hx)
        · rintro (hx | hx)
          · exact Or.inl hx
          · rcases List.mem_cons.1 hx with rfl | hx
            · exact Or.inl hk
            · exact Or.inr hx
      · simp only [List.length_cons]
        omega
      · intro h
        simp only [List.length_cons] at h
        omega
    · simp only [if_neg hk]
      have hacc2 : (acc ++ [k]).Nodup := by
        rw [List.nodup_append]
        refine ⟨hacc, List.nodup_singleton k, ?_⟩
        intro a ha hb
        simp only [List.mem_singleton] at hb
        subst hb
        exact hk ha
      obtain ⟨h1, h2, h3, h4⟩ := ih (acc ++ [k]) hacc2
      have hlenak : (acc ++ [k]).length = acc.length + 1 := by simp
      refine ⟨h1, ?_, ?_, ?_⟩
      · intro x
        rw [h2]
        simp only [List.mem_append, List.mem_singleton, List.mem_cons]
        tauto
      · rw [hlenak] at h3
        simp only [List.length_cons]
        omega
      · intro h
        rw [hlenak] at h4
        simp only [List.length_cons] at h
        obtain ⟨hnd, hdisj⟩ := h4 (by omega)
        have hknot : k ∉ ks := by
          intro hmem
          exact hdisj k hmem (by simp)
        refine ⟨List.nodup_cons.2 ⟨hknot, hnd⟩, ?_⟩
        intro x hx
        rcases List.mem_cons.1 hx with rfl | hx
        · exact hk
        · intro hxa
          exact hdisj x hx (List.mem_append_left _ hxa)

theorem dedupF_nodup (l : List String) : (dedupF l).Nodup :=
  (dedupF_aux_spec l [] List.nodup_nil).1

theorem mem_dedupF {l : List String} {x : String} : x ∈ dedupF l ↔ x ∈ l := by
  rw [dedupF, (dedupF_aux_spec l [] List.nodup_nil).2.1 x]
  simp

theorem dedupF_length_le (l : List String) : (dedupF l).length ≤ l.length := by
  have := (dedupF_aux_spec l [] List.nodup_nil).2.2.1
  simpa [dedupF] using this

theorem dedupF_length_eq (l : List String)
    (h : (dedupF l).length = l.length) : l.Nodup := by
  have := (dedupF_aux_spec l [] List.nodup_nil).2.2.2
  exact (this (by simpa [dedupF] using h)).1

/-! ### `buildDependencyGraph` characterization -/

theorem except_bind_ok {α β ε : Type} (a : α) (f : α → Except ε β) :
    (Except.ok a >>= f) = f a := rfl

theorem except_bind_err {α β ε : Type} (e : ε) (f : α → Except ε β) :
    (Except.error e >>= f : Except ε β) = Except.error e := rfl

theorem collectDeps_mem {sid : String} {ids : List String} :
    ∀ {l acc r : List String},
      collectDeps sid ids acc l = .ok r →
      (∀ x, x ∈ r ↔ x ∈ acc ∨ x ∈ l) ∧ (∀ d ∈ l, d ∈ ids) ∧
      (acc.Nodup → r.Nodup) := by
  intro l
  induction l with
  | nil =>
    intro acc r h
    simp only [collectDeps] at h
    cases h
    exact ⟨by simp, by simp, fun h => h⟩
  | cons d ds ih =>
    intro acc r h
    simp only [collectDeps] at h
    by_cases hd : d ∈ ids
    · rw [if_pos hd] at h
      obtain ⟨hmem, hids, hnd⟩ := ih h
      by_cases hda : d ∈ acc
      · rw [if_pos hda] at hmem hnd
        refine ⟨?_, ?_, hnd⟩
        · intro x
          rw [hmem x]
          constructor
          · rintro (hx | hx)
            · exact Or.inl hx
            · exact Or.inr (List.mem_cons_of_mem _ hx)
          · rintro (hx | hx)
            · exact Or.inl hx
            · rcases List.mem_cons.1 hx with rfl | hx
              · exact Or.inl hda
              · exact Or.inr hx
        · intro x hx
          rcases List.mem_cons.1 hx with rfl | hx
          · exact hd
          · exact hids x hx
      · rw [if_neg hda] at hmem hnd
        refine ⟨?_, ?_, ?_⟩
        · intro x
          rw [hmem x]
          simp only [List.mem_append, List.mem_singleton, List.mem_cons]
          tauto
        · intro x hx
          rcases List.mem_cons.1 hx with rfl | hx
          · exact hd
          · exact hids x hx
        · intro hacc
          apply hnd
          rw [List.nodup_append]
          refine ⟨hacc, List.nodup_singleton d, ?_⟩
          intro a ha hb
          simp only [List.mem_singleton] at hb
          subst hb
          exact hda ha
    · rw [if_neg hd] at h
      cases h

theorem mem_gkeys_iff {g : Graph} {k : String} :
    k ∈ gkeys g ↔ g.any (fun p => p.1 == k) := by
  rw [List.any_eq_true]
  constructor
  · intro h
    rcases exists_entry h with ⟨p, hp, hk⟩
    exact ⟨p, hp, beq_iff_eq.2 hk⟩
  · rintro ⟨p, hp, he⟩
    exact (beq_iff_eq.1 he) ▸ mem_gkeys_of_mem hp

theorem gkeys_upsert (g : Graph) (k : String) (v : List String) :
    gkeys (upsert g k v) = if k ∈ gkeys g then gkeys g else gkeys g ++ [k] := by
  unfold upsert
  by_cases hk : k ∈ gkeys g
  · rw [if_pos (mem_gkeys_iff.1 hk), if_pos hk]
    unfold gkeys
    rw [List.map_map]
    apply List.map_congr_left
    intro p _
    by_cases hp : p.1 == k
    · simp only [Function.comp, hp, if_pos]
      exact (beq_iff_eq.1 hp).symm
    · simp only [Function.comp, hp]
      rfl
  · rw [if_neg (fun h => hk (mem_gkeys_iff.2 h)), if_neg hk]
    unfold gkeys
    simp

theorem mem_upsert {g : Graph} {k : String} {v : List String}
    {p : String × List String} (h : p ∈ upsert g k v) :
    p ∈ g ∨ p = (k, v) := by
  unfold upsert at h
  by_cases hk : g.any (fun p => p.1 == k)
  · rw [if_pos hk] at h
    rcases List.mem_map.1 h with ⟨q, hq, he⟩
    by_cases hqk : q.1 == k
    · rw [if_pos hqk] at he
      exact Or.inr he.symm
    · rw [if_neg hqk] at he
      exact Or.inl (he ▸ hq)
  · rw [if_neg hk] at h
    rcases List.mem_append.1 h with h1 | h1
    · exact Or.inl h1
    · simp only [List.mem_singleton] at h1
      exact Or.inr h1

theorem depsOf_map_set {k : String} {v : List String} :
    ∀ g : Graph, k ∈ gkeys g →
      depsOf (g.map (fun p => if p.1 == k then (k, v) else p)) k = v := by
  intro g
  induction g with
  | nil => intro h; simp [gkeys] at h
  | cons a g ih =>
    intro h
    rw [List.map_cons]
    by_cases ha : (a.1 == k) = true
    · rw [if_pos ha]
      unfold depsOf
      rw [@List.find?_cons_of_pos _ (fun p => p.1 == k) (k, v) _ (by simp)]
    · rw [if_neg ha]
      unfold depsOf
      rw [@List.find?_cons_of_neg _ (fun p => p.1 == k) a _ ha]
      apply ih
      have h2 : k ∈ a.1 :: gkeys g := by simpa [gkeys] using h
      rcases List.mem_cons.1 h2 with rfl | h2
      · exact absurd (beq_iff_eq.2 rfl) ha
      · exact h2

theorem depsOf_map_set_ne {k q : String} {v : List String} (hne : q ≠ k) :
    ∀ g : Graph,
      depsOf (g.map (fun p => if p.1 == k then (k, v) else p)) q = depsOf g q := by
  intro g
  induction g with
  | nil => simp
  | cons a g ih =>
    rw [List.map_cons]
    by_cases ha : (a.1 == k) = true
    · have hak : a.1 = k := beq_iff_eq.1 ha
      have h1 : ¬((k : String) == q) = true := by
        simp only [beq_iff_eq]
        exact fun h => hne h.symm
      have h2 : ¬(a.1 == q) = true := by
        simp only [beq_iff_eq]
        exact fun h => hne (h ▸ hak)
      rw [if_pos ha]
      unfold depsOf
      rw [@List.find?_cons_of_neg _ (fun p => p.1 == q) (k, v) _ h1,
        @List.find?_cons_of_neg _ (fun p => p.1 == q) a _ h2]
      exact ih
    · rw [if_neg ha]
      unfold depsOf
      by_cases haq : (a.1 == q) = true
      · rw [@List.find?_cons_of_pos _ (fun p => p.1 == q) a _ haq,
          @List.find?_cons_of_pos _ (fun p => p.1 == q) a _ haq]
      · rw [@List.find?_cons_of_neg _ (fun p => p.1 == q) a _ haq,
          @List.find?_cons_of_neg _ (fun p => p.1 == q) a _ haq]
        exact ih

theorem depsOf_append_last {k : String} {v : List String} :
    ∀ g : Graph, (∀ p ∈ g, (p.1 == k) = false) →
      depsOf (g ++ [(k, v)]) k = v := by
  intro g
  induction g with
  | nil =>
    intro _
    rw [List.nil_append]
    unfold depsOf
    rw [@List.find?_cons_of_pos _ (fun p => p.1 == k) (k, v) _ (by simp)]
  | cons a g ih =>
    intro h
    rw [List.cons_append]
    unfold depsOf
    rw [@List.find?_cons_of_neg _ (fun p => p.1 == k) a _
      (by simp [h a (List.mem_cons_self a g)])]
    exact ih (fun p hp => h p (List.mem_cons_of_mem a hp))

theorem depsOf_append_last_ne {k q : String} {v : List String} (hne : q ≠ k) :
    ∀ g : Graph, depsOf (g ++ [(k, v)]) q = depsOf g q := by
  intro g
  induction g with
  | nil =>
    rw [List.nil_append]
    unfold depsOf
    rw [@List.find?_cons_of_neg _ (fun p => p.1 == q) (k, v) _
      (by simp only [beq_iff_eq]; exact fun h => hne h.symm),
      List.find?_nil]
  | cons a g ih =>
    rw [List.cons_append]
    unfold depsOf
    by_cases haq : (a.1 == q) = true
    · rw [@List.find?_cons_of_pos _ (fun p => p.1 == q) a _ haq,
        @List.find?_cons_of_pos _ (fun p => p.1 == q) a _ haq]
    · rw [@List.find?_cons_of_neg _ (fun p => p.1 == q) a _ haq,
        @List.find?_cons_of_neg _ (fun p => p.1 == q) a _ haq]
      exact ih

theorem depsOf_upsert_self (g : Graph) (k : String) (v : List String) :
    depsOf (upsert g k v) k = v := by
  unfold upsert
  by_cases hk : g.any (fun p => p.1 == k)
  · rw [if_pos hk]
    exact depsOf_map_set g (mem_gkeys_iff.2 hk)
  · rw [if_neg hk]
    apply depsOf_append_last
    intro p hp
    by_contra hcon
    exact hk (List.any_eq_true.2 ⟨p, hp, by simpa using hcon⟩)

theorem depsOf_upsert_ne {g : Graph} {k q : String} (v : List String)
    (hne : q ≠ k) : depsOf (upsert g k v) q = depsOf g q := by
  unfold upsert
  by_cases hk : g.any (fun p => p.1 == k)
  · rw [if_pos hk]
    exact depsOf_map_set_ne hne g
  · rw [if_neg hk]
    exact depsOf_append_last_ne hne g

theorem buildFold_keys {ids : List String} :
    ∀ (steps : List Step) (g0 g : Graph),
      steps.foldlM (buildStepF ids) g0 = .ok g →
      gkeys g = (steps.map Step.id).foldl
        (fun ks k => if k ∈ ks then ks else ks ++ [k]) (gkeys g0) := by
  intro steps
  induction steps with
  | nil =>
    intro g0 g h
    simp only [List.foldlM_nil] at h
    cases h
    simp
  | cons t ts ih =>
    intro g0 g h
    rw [List.foldlM_cons] at h
    cases hc : collectDeps t.id ids [] t.depends_on with
    | error e =>
      rw [show buildStepF ids g0 t = .error e by rw [buildStepF, hc],
        except_bind_err] at h
      cases h
    | ok ds =>
      rw [show buildStepF ids g0 t = .ok (upsert g0 t.id ds) by
          rw [buildStepF, hc],
        except_bind_ok] at h
      rw [List.map_cons, List.foldl_cons, ← gkeys_upsert]
      exact ih (upsert g0 t.id ds) g h

theorem buildFold_entries {ids : List String} :
    ∀ (steps : List Step) (g0 g : Graph),
      steps.foldlM (buildStepF ids) g0 = .ok g →
      ∀ p ∈ g, p ∈ g0 ∨ ((p.2 : List String).Nodup ∧ ∀ d ∈ p.2, d ∈ ids) := by
  intro steps
  induction steps with
  | nil =>
    intro g0 g h p hp
    simp only [List.foldlM_nil] at h
    cases h
    exact Or.inl hp
  | cons t ts ih =>
    intro g0 g h p hp
    rw [List.foldlM_cons] at h
    cases hc : collectDeps t.id ids [] t.depends_on with
    | error e =>
      rw [show buildStepF ids g0 t = .error e by rw [buildStepF, hc],
        except_bind_err] at h
      cases h
    | ok ds =>
      rw [show buildStepF ids g0 t = .ok (upsert g0 t.id ds) by
          rw [buildStepF, hc],
        except_bind_ok] at h
      rcases ih (upsert g0 t.id ds) g h p hp with h1 | h1
      · rcases mem_upsert h1 with h2 | h2
        · exact Or.inl h2
        · obtain ⟨hmem, hsub, hnd⟩ := collectDeps_mem hc
          refine Or.inr ⟨?_, ?_⟩
          · have := hnd List.nodup_nil
            rw [h2]
            exact this
          · intro d hd
            rw [h2] at hd
            rcases (hmem d).1 hd with h3 | h3
            · cases h3
            · exact hsub d h3
      · exact Or.inr h1

theorem buildFold_untouched {ids : List String} :
    ∀ (steps : List Step) (g0 g : Graph),
      steps.foldlM (buildStepF ids) g0 = .ok g →
      ∀ k, k ∉ steps.map Step.id → depsOf g k = depsOf g0 k := by
  intro steps
  induction steps with
  | nil =>
    intro g0 g h k _
    simp only [List.foldlM_nil] at h
    cases h
    rfl
  | cons t ts ih =>
    intro g0 g h k hk
    rw [List.map_cons] at hk
    rw [List.foldlM_cons] at h
    cases hc : collectDeps t.id ids [] t.depends_on with
    | error e =>
      rw [show buildStepF ids g0 t = .error e by rw [buildStepF, hc],
        except_bind_err] at h
      cases h
    | ok ds =>
      rw [show buildStepF ids g0 t = .ok (upsert g0 t.id ds) by
          rw [buildStepF, hc],
        except_bind_ok] at h
      have hkt : k ≠ t.id := fun h2 => hk (h2 ▸ List.mem_cons_self _ _)
      have hkts : k ∉ ts.map Step.id := fun h2 => hk (List.mem_cons_of_mem _ h2)
      rw [ih (upsert g0 t.id ds) g h k hkts]
      exact depsOf_upsert_ne ds hkt

theorem buildFold_value {ids : List String} :
    ∀ (steps : List Step) (g0 g : Graph),
      steps.foldlM (buildStepF ids) g0 = .ok g →
      (steps.map Step.id).Nodup →
      (∀ s ∈ steps, s.id ∉ gkeys g0) →
      ∀ s ∈ steps, ∃ r, collectDeps s.id ids [] s.depends_on = .ok r ∧
        depsOf g s.id = r := by
  intro steps
  induction steps with
  | nil =>
    intro g0 g _ _ _ s hs
    cases hs
  | cons t ts ih =>
    intro g0 g h hnd hdisj s hs
    rw [List.foldlM_cons] at h
    cases hc : collectDeps t.id ids [] t.depends_on with
    | error e =>
      rw [show buildStepF ids g0 t = .error e by rw [buildStepF, hc],
        except_bind_err] at h
      cases h
    | ok ds =>
      rw [show buildStepF ids g0 t = .ok (upsert g0 t.id ds) by
          rw [buildStepF, hc],
        except_bind_ok] at h
      rw [List.map_cons, List.nodup_cons] at hnd
      rcases List.mem_cons.1 hs with rfl | hs2
      · refine ⟨ds, hc, ?_⟩
        have hnott : s.id ∉ ts.map Step.id := hnd.1
        rw [buildFold_untouched ts (upsert g0 s.id ds) g h s.id hnott]
        exact depsOf_upsert_self g0 s.id ds
      · apply ih (upsert g0 t.id ds) g h hnd.2 _ s hs2
        intro s2 hs2m
        rw [gkeys_upsert]
        by_cases htk : t.id ∈ gkeys g0
        · rw [if_pos htk]
          exact hdisj s2 (List.mem_cons_of_mem _ hs2m)
        · rw [if_neg htk]
          intro hmem
          rcases List.mem_append.1 hmem with h3 | h3
          · exact hdisj s2 (List.mem_cons_of_mem _ hs2m) h3
          · simp only [List.mem_singleton] at h3
            exact hnd.1 (h3 ▸ List.mem_map_of_mem Step.id hs2m)

theorem buildGraph_keys {steps : List Step} {g : Graph}
    (h : buildDependencyGraph steps = .ok g) :
    gkeys g = dedupF (steps.map Step.id) := by
  have := buildFold_keys steps [] g h
  simpa [dedupF, gkeys] using this

theorem buildGraph_good {steps : List Step} {g : Graph}
    (h : buildDependencyGraph steps = .ok g) : GoodGraph g := by
  have hkeys := buildGraph_keys h
  refine ⟨?_, ?_, ?_⟩
  · rw [hkeys]
    exact dedupF_nodup _
  · intro p hp
    rcases buildFold_entries steps [] g h p hp with h1 | h1
    · cases h1
    · exact h1.1
  · intro p hp d hd
    rcases buildFold_entries steps [] g h p hp with h1 | h1
    · cases h1
    · rw [hkeys]
      exact mem_dedupF.2 (h1.2 d hd)

theorem buildGraph_depsOf_mem {steps : List Step} {g : Graph}
    (hnd : (steps.map Step.id).Nodup)
    (h : buildDependencyGraph steps = .ok g) :
    ∀ s ∈ steps, ∀ d, d ∈ depsOf g s.id ↔ d ∈ s.depends_on := by
  intro s hs d
  obtain ⟨r, hr, hdeps⟩ := buildFold_value steps [] g h hnd
    (fun _ _ => by simp [gkeys]) s hs
  obtain ⟨hmem, _, _⟩ := collectDeps_mem hr
  rw [hdeps, hmem d]
  simp

/-! ### The in-degree map -/

theorem map_fst_setDeg (D : List (String × Int)) (k : String) (v : Int) :
    (setDeg D k v).map Prod.fst = D.map Prod.fst := by
  unfold setDeg
  rw [List.map_map]
  apply List.map_congr_left
  intro p _
  by_cases hp : (p.1 == k) = true
  · simp only [Function.comp, if_pos hp]
    exact (beq_iff_eq.1 hp).symm
  · simp only [Function.comp, if_neg hp]

theorem lookupDeg_setDeg_self {k : String} {v : Int} :
    ∀ D : List (String × Int), k ∈ D.map Prod.fst →
      lookupDeg (setDeg D k v) k = v := by
  intro D
  induction D with
  | nil => intro h; simp at h
  | cons a D ih =>
    intro h
    unfold setDeg
    rw [List.map_cons]
    by_cases ha : (a.1 == k) = true
    · unfold lookupDeg
      rw [if_pos ha,
        @List.find?_cons_of_pos _ (fun p => p.1 == k) (k, v) _ (by simp)]
    · unfold lookupDeg
      rw [if_neg ha,
        @List.find?_cons_of_neg _ (fun p => p.1 == k) a _ ha]
      have h2 : k ∈ a.1 :: D.map Prod.fst := by simpa using h
      rcases List.mem_cons.1 h2 with rfl | h2
      · exact absurd (beq_iff_eq.2 rfl) ha
      · exact ih h2

theorem lookupDeg_setDeg_ne {k q : String} {v : Int} (hne : q ≠ k) :
    ∀ D : List (String × Int),
      lookupDeg (setDeg D k v) q = lookupDeg D q := by
  intro D
  induction D with
  | nil => simp [setDeg]
  | cons a D ih =>
    unfold setDeg
    rw [List.map_cons]
    by_cases ha : (a.1 == k) = true
    · have hak : a.1 = k := beq_iff_eq.1 ha
      have h1 : ¬((k : String) == q) = true := by
        simp only [beq_iff_eq]
        exact fun h => hne h.symm
      have h2 : ¬(a.1 == q) = true := by
        simp only [beq_iff_eq]
        exact fun h => hne (h ▸ hak)
      unfold lookupDeg
      rw [if_pos ha,
        @List.find?_cons_of_neg _ (fun p => p.1 == q) (k, v) _ h1,
        @List.find?_cons_of_neg _ (fun p => p.1 == q) a _ h2]
      exact ih
    · unfold lookupDeg
      rw [if_neg ha]
      by_cases haq : (a.1 == q) = true
      · rw [@List.find?_cons_of_pos _ (fun p => p.1 == q) a _ haq,
          @List.find?_cons_of_pos _ (fun p => p.1 == q) a _ haq]
      · rw [@List.find?_cons_of_neg _ (fun p => p.1 == q) a _ haq,
          @List.find?_cons_of_neg _ (fun p => p.1 == q) a _ haq]
        exact ih

theorem lookupDeg_map {f : String × List String → Int} :
    ∀ g : Graph, (gkeys g).Nodup → ∀ p ∈ g,
      lookupDeg (g.map (fun q => (q.1, f q))) p.1 = f p := by
  intro g
  induction g with
  | nil => intro _ p hp; cases hp
  | cons a g ih =>
    intro hnd p hp
    rw [List.map_cons]
    rcases List.mem_cons.1 hp with rfl | hp2
    · unfold lookupDeg
      rw [@List.find?_cons_of_pos _ (fun q => q.1 == p.1) (p.1, f p) _ (by simp)]
    · have hne : ¬(a.1 == p.1) = true := by
        simp only [beq_iff_eq]
        intro h
        have hnd2 := (List.nodup_cons.1
          (by simpa only [gkeys, List.map_cons] using hnd)).1
        exact hnd2 (h ▸ mem_gkeys_of_mem hp2)
      unfold lookupDeg
      rw [@List.find?_cons_of_neg _ (fun q => q.1 == p.1) (a.1, f a) _ hne]
      exact ih (List.nodup_cons.1
        (by simpa only [gkeys, List.map_cons] using hnd)).2 p hp2

/-! ### Specification of the decrement loop -/

theorem decFold_spec (cur : String) :
    ∀ (l : Graph) (D : List (String × Int)) (q : List String),
      (l.map Prod.fst).Nodup →
      (∀ p ∈ l, p.1 ∈ D.map Prod.fst) →
      ((l.foldl (decF cur) (D, q)).1.map Prod.fst = D.map Prod.fst) ∧
      (∀ k, k ∉ l.map Prod.fst →
        lookupDeg (l.foldl (decF cur) (D, q)).1 k = lookupDeg D k) ∧
      (∀ p ∈ l, lookupDeg (l.foldl (decF cur) (D, q)).1 p.1 =
        lookupDeg D p.1 - (if cur ∈ p.2 then 1 else 0)) ∧
      ((l.foldl (decF cur) (D, q)).2 =
        q ++ (l.filter (fun p => decide (cur ∈ p.2) &&
          (lookupDeg D p.1 == 1))).map Prod.fst) := by
  intro l
  induction l with
  | nil =>
    intro D q _ _
    exact ⟨rfl, fun _ _ => rfl, fun p hp => absurd hp (List.not_mem_nil p),
      by simp⟩
  | cons p l ih =>
    intro D q hnd hkeys
    rw [List.map_cons, List.nodup_cons] at hnd
    rw [List.foldl_cons]
    by_cases hc : cur ∈ p.2
    · have hdec : decF cur (D, q) p =
          (setDeg D p.1 (lookupDeg D p.1 - 1),
           if lookupDeg D p.1 - 1 = 0 then q ++ [p.1] else q) := by
        unfold decF
        rw [if_pos hc]
      rw [hdec]
      set D2 := setDeg D p.1 (lookupDeg D p.1 - 1) with hD2
      set q2 := if lookupDeg D p.1 - 1 = 0 then q ++ [p.1] else q with hq2
      have hDkeys : D2.map Prod.fst = D.map Prod.fst := map_fst_setDeg D _ _
      have hkeys2 : ∀ r ∈ l, r.1 ∈ D2.map Prod.fst := by
        intro r hr
        rw [hDkeys]
        exact hkeys r (List.mem_cons_of_mem p hr)
      obtain ⟨ih1, ih2, ih3, ih4⟩ := ih D2 q2 hnd.2 hkeys2
      have hlookD2 : ∀ r ∈ l, lookupDeg D2 r.1 = lookupDeg D r.1 := by
        intro r hr
        apply lookupDeg_setDeg_ne
        intro h
        exact hnd.1 (h ▸ List.mem_map_of_mem Prod.fst hr)
      refine ⟨ih1.trans hDkeys, ?_, ?_, ?_⟩
      · intro k hk
        have hkp : k ≠ p.1 := fun h => hk (h ▸ List.mem_cons_self _ _)
        have hkl : k ∉ l.map Prod.fst := fun h => hk (List.mem_cons_of_mem _ h)
        rw [ih2 k hkl, hD2, lookupDeg_setDeg_ne hkp]
      · intro r hr
        rcases List.mem_cons.1 hr with rfl | hr2
        · rw [ih2 r.1 hnd.1, hD2,
            lookupDeg_setDeg_self D (hkeys r (List.mem_cons_self _ _)),
            if_pos hc]
        · rw [ih3 r hr2, hlookD2 r hr2]
      · rw [ih4]
        have hfilter : l.filter (fun r => decide (cur ∈ r.2) &&
            (lookupDeg D2 r.1 == 1)) = l.filter (fun r => decide (cur ∈ r.2) &&
            (lookupDeg D r.1 == 1)) := by
          apply List.filter_congr
          intro r hr
          rw [hlookD2 r hr]
        rw [hfilter, hq2]
        by_cases hv : lookupDeg D p.1 - 1 = 0
        · rw [if_pos hv]
          have hp1 : (decide (cur ∈ p.2) && (lookupDeg D p.1 == 1)) = true := by
            rw [decide_eq_true hc, Bool.true_and, beq_iff_eq]
            omega
          rw [@List.filter_cons_of_pos _
              (fun r => decide (cur ∈ r.2) && (lookupDeg D r.1 == 1)) p l hp1,
            List.map_cons, List.append_assoc, List.singleton_append]
        · rw [if_neg hv]
          have hp1 : ¬(decide (cur ∈ p.2) && (lookupDeg D p.1 == 1)) = true := by
            rw [decide_eq_true hc, Bool.true_and, beq_iff_eq]
            omega
          rw [@List.filter_cons_of_neg _
              (fun r => decide (cur ∈ r.2) && (lookupDeg D r.1 == 1)) p l hp1]
    · have hdec : decF cur (D, q) p = (D, q) := by
        unfold decF
        rw [if_neg hc]
      rw [hdec]
      have hkeys2 : ∀ r ∈ l, r.1 ∈ D.map Prod.fst :=
        fun r hr => hkeys r (List.mem_cons_of_mem p hr)
      obtain ⟨ih1, ih2, ih3, ih4⟩ := ih D q hnd.2 hkeys2
      refine ⟨ih1, ?_, ?_, ?_⟩
      · intro k hk
        exact ih2 k (fun h => hk (List.mem_cons_of_mem _ h))
      · intro r hr
        rcases List.mem_cons.1 hr with rfl | hr2
        · rw [ih2 r.1 hnd.1, if_neg hc]
          omega
        · exact ih3 r hr2
      · rw [ih4]
        have hp1 : ¬(decide (cur ∈ p.2) && (lookupDeg D p.1 == 1)) = true := by
          rw [decide_eq_false hc, Bool.false_and]
          simp
        rw [@List.filter_cons_of_neg _
            (fun r => decide (cur ∈ r.2) && (lookupDeg D r.1 == 1)) p l hp1]

/-! ### Counting helpers for the in-degree invariant -/

theorem filter_length_partition {α : Type} (p : α → Bool) :
    ∀ l : List α,
      (l.filter p).length + (l.filter (fun a => !(p a))).length = l.length := by
  intro l
  induction l with
  | nil => rfl
  | cons a l ih =>
    by_cases ha : p a = true
    · rw [List.filter_cons_of_pos ha,
        @List.filter_cons_of_neg _ (fun a => !(p a)) a l (by simp [ha])]
      simp only [List.length_cons]
      omega
    · rw [List.filter_cons_of_neg ha,
        @List.filter_cons_of_pos _ (fun a => !(p a)) a l (by simp [ha])]
      simp only [List.length_cons]
      omega

theorem missing_one {l acc : List String} {c : String}
    (hlen : (l.filter (fun d => decide (d ∈ acc))).length + 1 = l.length)
    (hc : c ∈ l) (hca : c ∉ acc) : ∀ d ∈ l, d ∈ acc ∨ d = c := by
  have hpart := filter_length_partition (fun d => decide (d ∈ acc)) l
  have hflen : (l.filter (fun d => !(decide (d ∈ acc)))).length = 1 := by omega
  obtain ⟨x, hx⟩ := List.length_eq_one.1 hflen
  have hcx : c ∈ l.filter (fun d => !(decide (d ∈ acc))) := by
    rw [List.mem_filter]
    exact ⟨hc, by simp [hca]⟩
  rw [hx, List.mem_singleton] at hcx
  subst hcx
  intro d hd
  by_cases hda : d ∈ acc
  · exact Or.inl hda
  · have : d ∈ l.filter (fun d => !(decide (d ∈ acc))) := by
      rw [List.mem_filter]
      exact ⟨hd, by simp [hda]⟩
    rw [hx, List.mem_singleton] at this
    exact Or.inr this

theorem filter_all_but_one {l acc : List String} {c : String} :
    l.Nodup → c ∈ l → c ∉ acc → (∀ d ∈ l, d ∈ acc ∨ d = c) →
    (l.filter (fun d => decide (d ∈ acc))).length + 1 = l.length := by
  induction l with
  | nil => intro _ hc; cases hc
  | cons a l ih =>
    intro hnd hc hca hall
    rw [List.nodup_cons] at hnd
    rcases List.mem_cons.1 hc with rfl | hc2
    · rw [List.filter_cons_of_neg (by simp [hca])]
      have : l.filter (fun d => decide (d ∈ acc)) = l := by
        apply List.filter_eq_self.2
        intro d hd
        rcases hall d (List.mem_cons_of_mem _ hd) with h | h
        · simp [h]
        · exact absurd (h ▸ hd) hnd.1
      rw [this, List.length_cons]
    · have hac : a ≠ c := fun h => hnd.1 (h ▸ hc2)
      have haacc : a ∈ acc := by
        rcases hall a (List.mem_cons_self _ _) with h | h
        · exact h
        · exact absurd h hac
      rw [List.filter_cons_of_pos (by simp [haacc]), List.length_cons,
        List.length_cons]
      have := ih hnd.2 hc2 hca (fun d hd => hall d (List.mem_cons_of_mem _ hd))
      omega

theorem filter_append_singleton {acc : List String} {c : String} :
    ∀ l : List String, l.Nodup → c ∉ acc →
      (l.filter (fun d => decide (d ∈ acc ++ [c]))).length =
        (l.filter (fun d => decide (d ∈ acc))).length +
          (if c ∈ l then 1 else 0) := by
  intro l
  induction l with
  | nil => intro _ _; simp
  | cons d l ih =>
    intro hnd hca
    rw [List.nodup_cons] at hnd
    by_cases hdc : d = c
    · subst hdc
      rw [List.filter_cons_of_pos (by simp),
        List.filter_cons_of_neg (by simp [hca]),
        if_pos (List.mem_cons_self _ _), List.length_cons,
        ih hnd.2 hca, if_neg hnd.1]
    · by_cases hda : d ∈ acc
      · rw [List.filter_cons_of_pos (by simp [List.mem_append, hda]),
          List.filter_cons_of_pos (by simp [hda]), List.length_cons,
          List.length_cons, ih hnd.2 hca]
        have : (c ∈ d :: l) ↔ (c ∈ l) := by
          constructor
          · intro h
            rcases List.mem_cons.1 h with h | h
            · exact absurd h.symm hdc
            · exact h
          · exact List.mem_cons_of_mem d
        by_cases hcl : c ∈ l
        · rw [if_pos hcl, if_pos (this.2 hcl)]
        · rw [if_neg hcl, if_neg (fun h => hcl (this.1 h))]
      · have hdnot : d ∉ acc ++ [c] := by
          intro h
          rcases List.mem_append.1 h with h | h
          · exact hda h
          · exact hdc (by simpa using h)
        rw [List.filter_cons_of_neg (by simp [hdnot]),
          List.filter_cons_of_neg (by simp [hda]), ih hnd.2 hca]
        have : (c ∈ d :: l) ↔ (c ∈ l) := by
          constructor
          · intro h
            rcases List.mem_cons.1 h with h | h
            · exact absurd h.symm hdc
            · exact h
          · exact List.mem_cons_of_mem d
        by_cases hcl : c ∈ l
        · rw [if_pos hcl, if_pos (this.2 hcl)]
        · rw [if_neg hcl, if_neg (fun h => hcl (this.1 h))]

theorem subset_full {l m : List String} (hl : l.Nodup) (hm : m.Nodup)
    (hsub : ∀ x ∈ l, x ∈ m) (hlen : m.length ≤ l.length) :
    ∀ x ∈ m, x ∈ l := by
  have hfin : l.toFinset ⊆ m.toFinset := by
    intro x hx
    rw [List.mem_toFinset] at hx ⊢
    exact hsub x hx
  have hcard : m.toFinset.card ≤ l.toFinset.card := by
    rw [List.toFinset_card_of_nodup hl, List.toFinset_card_of_nodup hm]
    exact hlen
  have heq := Finset.eq_of_subset_of_card_le hfin hcard
  intro x hx
  rw [← List.mem_toFinset, ← heq, List.mem_toFinset] at hx
  exact hx

/-! ### The Kahn loop invariant -/

/-- Every element of `acc` appears after all of its dependencies. -/
def TopoPrefix (g : Graph) (acc : List String) : Prop :=
  ∀ (i : Nat) (h : i < acc.length),
    ∀ d ∈ depsOf g (acc.get ⟨i, h⟩), d ∈ acc.take i

/-- Invariant of the `while queue` loop of `_compute_execution_order`. -/
structure KahnInv (g : Graph) (queue : List String)
    (D : List (String × Int)) (acc : List String) : Prop where
  nodup : (acc ++ queue).Nodup
  sub : ∀ x ∈ acc ++ queue, x ∈ gkeys g
  degKeys : D.map Prod.fst = gkeys g
  degVal : ∀ p ∈ g, lookupDeg D p.1 =
    (p.2.length : Int) - ((p.2.filter (fun d => decide (d ∈ acc))).length : Int)
  closed : ∀ p ∈ g, (p.1 ∈ acc ++ queue ↔ ∀ d ∈ p.2, d ∈ acc)
  topo : TopoPrefix g acc

theorem kahnInv_step {g : Graph} (hg : GoodGraph g) {c : String}
    {rest : List String} {D : List (String × Int)} {acc : List String}
    (inv : KahnInv g (c :: rest) D acc) :
    KahnInv g (decStep g c (D, rest)).2 (decStep g c (D, rest)).1
      (acc ++ [c]) := by
  have hDkeys : ∀ p ∈ g, p.1 ∈ D.map Prod.fst := by
    intro p hp
    rw [inv.degKeys]
    exact mem_gkeys_of_mem hp
  obtain ⟨s1, s2, s3, s4⟩ := decFold_spec c g D rest hg.nodupKeys hDkeys
  rw [show decStep g c (D, rest) = List.foldl (decF c) (D, rest) g from rfl]
  have hcq : c ∈ acc ++ c :: rest :=
    List.mem_append.2 (Or.inr (List.mem_cons_self _ _))
  have hcg : c ∈ gkeys g := inv.sub c hcq
  have hnd3 := List.nodup_append.1 inv.nodup
  have hcacc : c ∉ acc := by
    intro h
    exact hnd3.2.2 h (List.mem_cons_self _ _)
  obtain ⟨pc, hpc, hpc1⟩ := exists_entry hcg
  have hcdeps : ∀ d ∈ pc.2, d ∈ acc := (inv.closed pc hpc).1 (hpc1 ▸ hcq)
  -- the enqueued entries
  set E := (g.filter (fun p => decide (c ∈ p.2) &&
    (lookupDeg D p.1 == 1))).map Prod.fst with hE
  have hEsub : ∀ k ∈ E, k ∈ gkeys g := by
    intro k hk
    exact ((List.filter_sublist g).map Prod.fst).mem hk
  have hEnodup : E.Nodup :=
    ((List.filter_sublist g).map Prod.fst).nodup hg.nodupKeys
  have hEprop : ∀ k ∈ E, ∃ p ∈ g, p.1 = k ∧ c ∈ p.2 ∧ lookupDeg D p.1 = 1 := by
    intro k hk
    rw [hE] at hk
    rcases List.mem_map.1 hk with ⟨p, hp, hk2⟩
    rw [List.mem_filter] at hp
    have hb := hp.2
    rw [Bool.and_eq_true, decide_eq_true_eq, beq_iff_eq] at hb
    exact ⟨p, hp.1, hk2, hb.1, hb.2⟩
  have hEdeps : ∀ k ∈ E, ∃ p ∈ g, p.1 = k ∧ c ∈ p.2 ∧
      ∀ d ∈ p.2, d ∈ acc ∨ d = c := by
    intro k hk
    obtain ⟨p, hp, hk2, hcp, hlook⟩ := hEprop k hk
    refine ⟨p, hp, hk2, hcp, ?_⟩
    have hval := inv.degVal p hp
    rw [hlook] at hval
    have hflen : (p.2.filter (fun d => decide (d ∈ acc))).length + 1
        = p.2.length := by omega
    exact missing_one hflen hcp hcacc
  have hEnotin : ∀ k ∈ E, k ∉ acc ++ c :: rest := by
    intro k hk hmem
    obtain ⟨p, hp, hk2, hcp, _⟩ := hEprop k hk
    have := (inv.closed p hp).1 (hk2 ▸ hmem)
    exact hcacc (this c hcp)
  -- rewrite the new accumulated list
  have happ2 : (acc ++ [c]) ++ rest = acc ++ c :: rest := by
    rw [List.append_assoc, List.singleton_append]
  refine ⟨?_, ?_, ?_, ?_, ?_, ?_⟩
  · -- nodup
    rw [s4, ← List.append_assoc, happ2]
    rw [List.nodup_append]
    exact ⟨inv.nodup, hEnodup, fun a ha hb => hEnotin a hb ha⟩
  · -- sub
    intro x hx
    rw [s4, ← List.append_assoc, happ2] at hx
    rcases List.mem_append.1 hx with hx | hx
    · exact inv.sub x hx
    · exact hEsub x hx
  · -- degKeys
    rw [s1, inv.degKeys]
  · -- degVal
    intro p hp
    rw [s3 p hp, inv.degVal p hp,
      filter_append_singleton p.2 (hg.depsNodup p hp) hcacc]
    by_cases hcp : c ∈ p.2
    · rw [if_pos hcp, if_pos hcp]
      push_cast
      omega
    · rw [if_neg hcp, if_neg hcp]
      push_cast
      omega
  · -- closed
    intro p hp
    rw [s4, ← List.append_assoc, happ2]
    constructor
    · intro hmem
      rcases List.mem_append.1 hmem with hmem | hmem
      · intro d hd
        exact List.mem_append_left _ ((inv.closed p hp).1 hmem d hd)
      · obtain ⟨p2, hp2, he, hcp2, hall⟩ := hEdeps p.1 hmem
        have hpp : p = p2 := entry_eq_of_nodup hg.nodupKeys hp hp2 he.symm
        subst hpp
        intro d hd
        rcases hall d hd with h | h
        · exact List.mem_append_left _ h
        · rw [h]
          exact List.mem_append_right _ (List.mem_singleton_self c)
    · intro hall
      by_cases hcp : c ∈ p.2
      · apply List.mem_append_right
        rw [hE]
        apply List.mem_map_of_mem Prod.fst
        rw [List.mem_filter]
        refine ⟨hp, ?_⟩
        rw [Bool.and_eq_true, decide_eq_true_eq, beq_iff_eq]
        refine ⟨hcp, ?_⟩
        have hall2 : ∀ d ∈ p.2, d ∈ acc ∨ d = c := by
          intro d hd
          rcases List.mem_append.1 (hall d hd) with h | h
          · exact Or.inl h
          · exact Or.inr (by simpa using h)
        have := filter_all_but_one (hg.depsNodup p hp) hcp hcacc hall2
        rw [inv.degVal p hp]
        omega
      · apply List.mem_append_left
        apply (inv.closed p hp).2
        intro d hd
        rcases List.mem_append.1 (hall d hd) with h | h
        · exact h
        · exact absurd ((by simpa using h : d = c) ▸ hd) hcp
  · -- topo
    intro i h d hd
    rw [List.length_append, List.length_singleton] at h
    by_cases hi : i < acc.length
    · rw [List.get_append i hi] at hd
      have := inv.topo i hi d hd
      rw [List.take_append_of_le_length (Nat.le_of_lt hi)]
      exact this
    · have hieq : i = acc.length := by omega
      subst hieq
      rw [List.get_eq_getElem,
        List.getElem_concat_length acc c acc.length rfl] at hd
      rw [List.take_left]
      have : depsOf g c = pc.2 := by
        rw [← hpc1]
        exact depsOf_eq_of_mem hg.nodupKeys hpc
      rw [this] at hd
      exact hcdeps d hd

theorem kahnInv_init {g : Graph} (hg : GoodGraph g) :
    KahnInv g ((g.filter (fun p => p.2.length == 0)).map Prod.fst)
      (g.map (fun p => (p.1, (p.2.length : Int)))) [] := by
  refine ⟨?_, ?_, ?_, ?_, ?_, ?_⟩
  · rw [List.nil_append]
    exact ((List.filter_sublist g).map Prod.fst).nodup hg.nodupKeys
  · intro x hx
    rw [List.nil_append] at hx
    exact ((List.filter_sublist g).map Prod.fst).mem hx
  · rw [List.map_map]
    apply List.map_congr_left
    intro p _
    rfl
  · intro p hp
    rw [lookupDeg_map g hg.nodupKeys p hp]
    simp
  · intro p hp
    rw [List.nil_append]
    constructor
    · intro hmem d hd
      rcases List.mem_map.1 hmem with ⟨q, hq, he⟩
      rw [List.mem_filter] at hq
      have hqp : q = p := entry_eq_of_nodup hg.nodupKeys hq.1 hp he
      have hq0 : q.2.length = 0 := by
        have := hq.2
        rwa [beq_iff_eq] at this
      rw [hqp] at hq0
      rw [List.length_eq_zero.1 hq0] at hd
      cases hd
    · intro hall
      have hnil : p.2 = [] := by
        apply List.eq_nil_iff_forall_not_mem.2
        intro d hd
        cases hall d hd
      apply List.mem_map_of_mem Prod.fst
      rw [List.mem_filter]
      exact ⟨hp, by rw [hnil]; rfl⟩
  · intro i h
    simp at h

theorem kahn_loop_spec {g : Graph} (hg : GoodGraph g) :
    ∀ (fuel : Nat) (queue : List String) (D : List (String × Int))
      (acc : List String), KahnInv g queue D acc →
      (gkeys g).length ≤ fuel + acc.length →
      ((kahnLoop g fuel queue D acc).Nodup ∧
       (∀ x ∈ kahnLoop g fuel queue D acc, x ∈ gkeys g) ∧
       TopoPrefix g (kahnLoop g fuel queue D acc) ∧
       (∀ p ∈ g, (p.1 ∈ kahnLoop g fuel queue D acc ↔
         ∀ d ∈ p.2, d ∈ kahnLoop g fuel queue D acc))) := by
  intro fuel
  induction fuel with
  | zero =>
    intro queue D acc inv hfuel
    have heq : kahnLoop g 0 queue D acc = acc := rfl
    rw [heq]
    have hnd := List.nodup_append.1 inv.nodup
    have hsub : ∀ x ∈ acc, x ∈ gkeys g :=
      fun x hx => inv.sub x (List.mem_append_left _ hx)
    have hfull : ∀ k ∈ gkeys g, k ∈ acc :=
      subset_full hnd.1 hg.nodupKeys hsub (by omega)
    refine ⟨hnd.1, hsub, inv.topo, ?_⟩
    intro p hp
    constructor
    · intro hmem d hd
      exact (inv.closed p hp).1 (List.mem_append_left _ hmem) d hd
    · intro hall
      rcases List.mem_append.1 ((inv.closed p hp).2 hall) with h | h
      · exact h
      · exfalso
        have hpk : p.1 ∈ gkeys g := inv.sub p.1 (List.mem_append_right _ h)
        exact hnd.2.2 (hfull p.1 hpk) h
  | succ fuel ih =>
    intro queue D acc inv hfuel
    cases queue with
    | nil =>
      have heq : kahnLoop g (fuel + 1) [] D acc = acc := rfl
      rw [heq]
      have hnd := List.nodup_append.1 inv.nodup
      refine ⟨hnd.1, fun x hx => inv.sub x (List.mem_append_left _ hx),
        inv.topo, ?_⟩
      intro p hp
      have hcl := inv.closed p hp
      rw [List.append_nil] at hcl
      exact hcl
    | cons c rest =>
      have heq : kahnLoop g (fuel + 1) (c :: rest) D acc =
          kahnLoop g fuel (decStep g c (D, rest)).2 (decStep g c (D, rest)).1
            (acc ++ [c]) := rfl
      rw [heq]
      apply ih _ _ _ (kahnInv_step hg inv)
      rw [List.length_append, List.length_singleton]
      omega

/-! ### Dependency paths and cycles -/

/-- A nonempty chain of `depends_on` edges from `a` to `b`:
`DepPath g a a` is a circular dependency. -/
inductive DepPath (g : Graph) : String → String → Prop
  | single {a b : String} : b ∈ depsOf g a → DepPath g a b
  | cons {a b c : String} : b ∈ depsOf g a → DepPath g b c → DepPath g a c

theorem DepPath.trans {g : Graph} {a b c : String}
    (h1 : DepPath g a b) (h2 : DepPath g b c) : DepPath g a c := by
  induction h1 with
  | single h => exact DepPath.cons h h2
  | cons h _ ih => exact DepPath.cons h (ih h2)

/-- If every member of a nonempty set of nodes has a dependency inside the
set, the graph has a circular dependency (pigeonhole). -/
theorem stuck_cycle {g : Graph} {S : List String} (hne : S ≠ [])
    (hstep : ∀ k ∈ S, ∃ d, d ∈ depsOf g k ∧ d ∈ S) :
    ∃ k, DepPath g k k := by
  obtain ⟨k0, hk0⟩ := List.exists_mem_of_ne_nil S hne
  classical
  choose f hf1 hf2 using hstep
  let σ : Nat → {x : String // x ∈ S} := fun n =>
    Nat.rec (motive := fun _ => {x : String // x ∈ S}) ⟨k0, hk0⟩
      (fun _ p => ⟨f p.1 p.2, hf2 p.1 p.2⟩) n
  have hchain : ∀ n : Nat, (σ (n + 1)).1 ∈ depsOf g (σ n).1 := by
    intro n
    exact hf1 (σ n).1 (σ n).2
  have hpath : ∀ m n : Nat, m < n → DepPath g (σ m).1 (σ n).1 := by
    intro m n
    induction n with
    | zero => intro h; cases h
    | succ n ihn =>
      intro h
      rcases Nat.lt_succ_iff_lt_or_eq.1 h with h2 | h2
      · exact (ihn h2).trans (DepPath.single (hchain n))
      · rw [h2]
        exact DepPath.single (hchain n)
  have hmaps : ∀ i ∈ Finset.range (S.toFinset.card + 1),
      (σ i).1 ∈ S.toFinset := by
    intro i _
    rw [List.mem_toFinset]
    exact (σ i).2
  obtain ⟨i, _, j, _, hne2, heq⟩ :=
    Finset.exists_ne_map_eq_of_card_lt_of_maps_to
      (by rw [Finset.card_range]; omega) hmaps
  rcases Nat.lt_or_ge i j with hij | hij
  · exact ⟨(σ i).1, heq ▸ hpath i j hij⟩
  · have hji : j < i := by omega
    exact ⟨(σ j).1, heq ▸ hpath j i hji⟩

theorem indexOf_lt_of_mem_take {x : String} :
    ∀ (l : List String) (n : Nat), x ∈ l.take n → l.indexOf x < n := by
  intro l
  induction l with
  | nil => intro n h; simp at h
  | cons a l ih =>
    intro n h
    cases n with
    | zero => simp at h
    | succ n =>
      rw [List.take_succ_cons] at h
      by_cases hxa : x = a
      · subst hxa
        rw [List.indexOf_cons_self]
        omega
      · rcases List.mem_cons.1 h with h2 | h2
        · exact absurd h2 hxa
        · rw [List.indexOf_cons_ne l (fun h3 => hxa h3.symm)]
          have := ih n h2
          omega

/-- Along a successful run's order, every dependency path strictly
decreases position. -/
theorem path_position {g : Graph} {order : List String}
    (hnd : order.Nodup) (htopo : TopoPrefix g order)
    (hclosed : ∀ a ∈ order, ∀ d ∈ depsOf g a, d ∈ order) :
    ∀ a b, DepPath g a b → a ∈ order →
      b ∈ order ∧ order.indexOf b < order.indexOf a := by
  intro a b hpath
  induction hpath with
  | single hb =>
    intro ha
    rename_i a2 b2
    have hb2 : b2 ∈ order := hclosed a2 ha b2 hb
    have hidx : order.indexOf a2 < order.length := List.indexOf_lt_length.2 ha
    have hget : order.get ⟨order.indexOf a2, hidx⟩ = a2 := List.indexOf_get hidx
    have htake := htopo (order.indexOf a2) hidx b2 (by rw [hget]; exact hb)
    exact ⟨hb2, indexOf_lt_of_mem_take order _ htake⟩
  | cons hb hpath2 ih =>
    intro ha
    rename_i a2 b2 c2
    have hb2 : b2 ∈ order := hclosed a2 ha b2 hb
    obtain ⟨hc2, hcb⟩ := ih hb2
    have hidx : order.indexOf a2 < order.length := List.indexOf_lt_length.2 ha
    have hget : order.get ⟨order.indexOf a2, hidx⟩ = a2 := List.indexOf_get hidx
    have htake := htopo (order.indexOf a2) hidx b2 (by rw [hget]; exact hb)
    have hba := indexOf_lt_of_mem_take order _ htake
    exact ⟨hc2, by omega⟩

theorem no_cycle_of_topo {g : Graph} {order : List String}
    (hnd : order.Nodup) (htopo : TopoPrefix g order)
    (hclosed : ∀ a ∈ order, ∀ d ∈ depsOf g a, d ∈ order)
    (hfull : ∀ k ∈ gkeys g, k ∈ order) : ∀ k, ¬ DepPath g k k := by
  intro k hk
  have hkg : k ∈ gkeys g := by
    cases hk with
    | single h =>
      exact mem_gkeys_of_depsOf_ne (fun he => by rw [he] at h; cases h)
    | cons h _ =>
      exact mem_gkeys_of_depsOf_ne (fun he => by rw [he] at h; cases h)
  have := path_position hnd htopo hclosed k k hk (hfull k hkg)
  omega

/-! ### Top-level facts about `computeExecutionOrder` -/

/-- The order produced by the Kahn loop (before the cycle check). -/
def kahnOrder (g : Graph) : List String :=
  kahnLoop g g.length ((g.filter (fun p => p.2.length == 0)).map Prod.fst)
    (g.map (fun p => (p.1, (p.2.length : Int)))) []

theorem computeExecutionOrder_eq (g : Graph) (numSteps : Nat) :
    computeExecutionOrder g numSteps =
      (if ((kahnOrder g).length == numSteps) = true then Except.ok (kahnOrder g)
       else Except.error (.validation
         "Circular dependency detected in workflow steps")) := rfl

theorem kahnOrder_spec {g : Graph} (hg : GoodGraph g) :
    (kahnOrder g).Nodup ∧ (∀ x ∈ kahnOrder g, x ∈ gkeys g) ∧
    TopoPrefix g (kahnOrder g) ∧
    (∀ p ∈ g, (p.1 ∈ kahnOrder g ↔ ∀ d ∈ p.2, d ∈ kahnOrder g)) := by
  apply kahn_loop_spec hg g.length _ _ _ (kahnInv_init hg)
  have hlen : (gkeys g).length = g.length := by simp [gkeys]
  omega

theorem kahnOrder_closed {g : Graph} (hg : GoodGraph g) :
    ∀ a ∈ kahnOrder g, ∀ d ∈ depsOf g a, d ∈ kahnOrder g := by
  intro a ha d hd
  obtain ⟨_, hsub, _, hiff⟩ := kahnOrder_spec hg
  have hak : a ∈ gkeys g := hsub a ha
  obtain ⟨p, hp, hp1⟩ := exists_entry hak
  have hdeps : depsOf g a = p.2 := by
    rw [← hp1]
    exact depsOf_eq_of_mem hg.nodupKeys hp
  exact (hiff p hp).1 (hp1 ▸ ha) d (hdeps ▸ hd)

theorem kahnOrder_complete {g : Graph} (hg : GoodGraph g)
    (hacyc : ∀ k, ¬ DepPath g k k) : ∀ k ∈ gkeys g, k ∈ kahnOrder g := by
  obtain ⟨hnd, hsub, htopo, hiff⟩ := kahnOrder_spec hg
  by_contra hcon
  push_neg at hcon
  obtain ⟨k0, hk0g, hk0⟩ := hcon
  set S := (gkeys g).filter (fun k => decide (k ∉ kahnOrder g)) with hS
  have hSne : S ≠ [] := by
    intro h
    have hmem : k0 ∈ S := by
      rw [hS, List.mem_filter]
      exact ⟨hk0g, by simp [hk0]⟩
    rw [h] at hmem
    cases hmem
  have hstep : ∀ k ∈ S, ∃ d, d ∈ depsOf g k ∧ d ∈ S := by
    intro k hk
    rw [hS, List.mem_filter] at hk
    have hkg := hk.1
    have hknot : k ∉ kahnOrder g := by simpa using hk.2
    obtain ⟨p, hp, hp1⟩ := exists_entry hkg
    have hdeps : depsOf g k = p.2 := by
      rw [← hp1]
      exact depsOf_eq_of_mem hg.nodupKeys hp
    have hnall : ¬ ∀ d ∈ p.2, d ∈ kahnOrder g := by
      intro hall
      exact hknot (hp1 ▸ (hiff p hp).2 hall)
    push_neg at hnall
    obtain ⟨d, hd, hdnot⟩ := hnall
    refine ⟨d, hdeps ▸ hd, ?_⟩
    rw [hS, List.mem_filter]
    exact ⟨hg.depsMem p hp d hd, by simp [hdnot]⟩
  obtain ⟨k, hk⟩ := stuck_cycle hSne hstep
  exact hacyc k hk

theorem length_le_of_nodup_subset {l m : List String} (hl : l.Nodup)
    (hsub : ∀ x ∈ l, x ∈ m) (hm : m.Nodup) : l.length ≤ m.length := by
  rw [← List.toFinset_card_of_nodup hl, ← List.toFinset_card_of_nodup hm]
  apply Finset.card_le_card
  intro x hx
  rw [List.mem_toFinset] at hx ⊢
  exact hsub x hx

theorem computeExecutionOrder_ok_eq {g : Graph} {numSteps : Nat}
    {order : List String}
    (h : computeExecutionOrder g numSteps = .ok order) :
    order = kahnOrder g ∧ (kahnOrder g).length = numSteps := by
  rw [computeExecutionOrder_eq] at h
  by_cases hl : ((kahnOrder g).length == numSteps) = true
  · rw [if_pos hl] at h
    cases h
    exact ⟨rfl, beq_iff_eq.1 hl⟩
  · rw [if_neg hl] at h
    cases h

theorem computeExecutionOrder_acyclic_ok {g : Graph} (hg : GoodGraph g)
    (hacyc : ∀ k, ¬ DepPath g k k) {numSteps : Nat}
    (hlen : (gkeys g).length = numSteps) :
    computeExecutionOrder g numSteps = .ok (kahnOrder g) := by
  obtain ⟨hnd, hsub, htopo, hiff⟩ := kahnOrder_spec hg
  have h1 : (kahnOrder g).length ≤ (gkeys g).length :=
    length_le_of_nodup_subset hnd hsub hg.nodupKeys
  have h2 : (gkeys g).length ≤ (kahnOrder g).length :=
    length_le_of_nodup_subset hg.nodupKeys (kahnOrder_complete hg hacyc) hnd
  rw [computeExecutionOrder_eq, if_pos]
  rw [beq_iff_eq]
  omega

theorem computeExecutionOrder_cyclic_error {g : Graph} (hg : GoodGraph g)
    {numSteps : Nat} (hns : (gkeys g).length ≤ numSteps)
    (hcyc : ∃ k, DepPath g k k) :
    computeExecutionOrder g numSteps = .error (.validation
      "Circular dependency detected in workflow steps") := by
  rw [computeExecutionOrder_eq]
  by_cases hl : ((kahnOrder g).length == numSteps) = true
  · exfalso
    obtain ⟨hnd, hsub, htopo, hiff⟩ := kahnOrder_spec hg
    have hle : (kahnOrder g).length ≤ (gkeys g).length :=
      length_le_of_nodup_subset hnd hsub hg.nodupKeys
    have heq : (kahnOrder g).length = numSteps := beq_iff_eq.1 hl
    have hfull : ∀ k ∈ gkeys g, k ∈ kahnOrder g :=
      subset_full hnd hg.nodupKeys hsub (by omega)
    obtain ⟨k, hk⟩ := hcyc
    exact no_cycle_of_topo hnd htopo (kahnOrder_closed hg) hfull k hk
  · rw [if_neg hl]

/-! ### Parse-stage inversion -/

theorem parseStep_id {r : RawStep} {s : Step} (h : parseStep r = .ok s) :
    r.core.id = some s.id ∧ s.id ≠ "" := by
  obtain ⟨core, thens, elses⟩ := r
  have hcore : (RawStep.mk core thens elses).core = core := rfl
  rw [hcore]
  simp only [parseStep] at h
  by_cases h1 : optFalsy core.id = true
  · rw [if_pos h1] at h
    cases h
  · rw [if_neg h1] at h
    obtain ⟨sid, hsid, hsidne⟩ : ∃ sid, core.id = some sid ∧ sid ≠ "" := by
      cases hcid : core.id with
      | none =>
        rw [hcid] at h1
        exact absurd rfl h1
      | some v =>
        refine ⟨v, rfl, ?_⟩
        intro hv
        rw [hcid, hv] at h1
        exact h1 rfl
    by_cases h2 : optFalsy core.type = true
    · rw [if_pos h2] at h
      cases h
    · rw [if_neg h2] at h
      repeat' split at h
      all_goals cases h
      all_goals exact ⟨by
          simp only [Step.id, Step.core, hsid, Option.getD_some],
        by
          simp only [Step.id, Step.core, hsid, Option.getD_some]
          exact hsidne⟩

theorem parseStepList_ids :
    ∀ {raws : List RawStep} {steps : List Step},
      parseStepList raws = .ok steps →
      raws.map RawStep.id = steps.map (fun s => some s.id) := by
  intro raws
  induction raws with
  | nil =>
    intro steps h
    simp only [parseStepList] at h
    cases h
    rfl
  | cons r rs ih =>
    intro steps h
    simp only [parseStepList] at h
    cases hr : parseStep r with
    | error e =>
      rw [hr] at h
      cases h
    | ok s =>
      rw [hr] at h
      cases hrs : parseStepList rs with
      | error e =>
        rw [hrs] at h
        cases h
      | ok ss =>
        rw [hrs] at h
        cases h
        rw [List.map_cons, List.map_cons, ih hrs]
        congr 1
        exact (parseStep_id hr).1

theorem parseWorkflowData_ok {raw : RawWorkflow} {wf : Workflow}
    (h : parseWorkflowData raw = .ok wf) :
    parseStepList raw.steps = .ok wf.steps ∧
    buildDependencyGraph wf.steps = .ok wf.step_dependency_graph ∧
    computeExecutionOrder wf.step_dependency_graph wf.steps.length =
      .ok wf.execution_order := by
  simp only [parseWorkflowData] at h
  by_cases h1 : optFalsy raw.name = true
  · rw [if_pos h1] at h; cases h
  · rw [if_neg h1] at h
    by_cases h2 : optFalsy raw.version = true
    · rw [if_pos h2] at h; cases h
    · rw [if_neg h2] at h
      by_cases h3 : raw.steps.isEmpty = true
      · rw [if_pos h3] at h; cases h
      · rw [if_neg h3] at h
        repeat' split at h
        all_goals cases h
        refine ⟨?_, ?_, ?_⟩ <;> assumption

/-! ### `validate_workflow` -/

def isLowerAlpha (c : Char) : Bool := 'a' ≤ c && c ≤ 'z'

def isWordLower (c : Char) : Bool :=
  isLowerAlpha c || ('0' ≤ c && c ≤ '9') || c == '_'

/-- `listStarts p l` is true when `p` is an initial segment of `l`. -/
def listStarts : List Char → List Char → Bool
  | [], _ => true
  | _ :: _, [] => false
  | p :: ps, c :: cs => p == c && listStarts ps cs

/-- True when `needle` occurs contiguously inside `hay`. -/
def listHasInfix (needle : List Char) : List Char → Bool
  | [] => listStarts needle []
  | c :: cs => listStarts needle (c :: cs) || listHasInfix needle cs

/-- Substring test on strings. -/
def strContainsSub (hay needle : String) : Bool :=
  listHasInfix needle.toList hay.toList

/-- Splits the maximal leading run of `[a-z0-9_]` characters. -/
def splitWordRun : List Char → List Char × List Char
  | [] => ([], [])
  | c :: cs =>
    if isWordLower c then
      let r := splitWordRun cs
      (c :: r.1, r.2)
    else ([], c :: cs)

/-- Backtracking tail of the `([a-z][a-z0-9_]*).outputs` pattern: after the
leading `[a-z]` char `c` and the maximal word run `r`, try group lengths
longest-first, requiring one arbitrary (non-newline) character (`.` is
unescaped in the source pattern) followed by the literal `outputs`. -/
def tryGroupAt (c : Char) (r rest : List Char) : Option String :=
  (List.range (r.length + 1)).reverse.findSome? fun i =>
    match r.drop i ++ rest with
    | [] => none
    | d :: tail =>
      if d ≠ Char.ofNat 10 && listStarts "outputs".toList tail then
        some (String.mk (c :: r.take i))
      else none

/-- `re.search(r'([a-z][a-z0-9_]*).outputs', s)`: leftmost match, returning
capture group 1. -/
def stepRefScan : List Char → Option String
  | [] => none
  | c :: cs =>
    if isLowerAlpha c then
      match tryGroupAt c (splitWordRun cs).1 (splitWordRun cs).2 with
      | some g => some g
      | none => stepRefScan cs
    else stepRefScan cs

/-- Python `str.split('.')`, computed structurally over the character
list (the empty string yields `[""]`, as in Python). -/
def splitDots : List Char → List (List Char)
  | [] => [[]]
  | c :: rest =>
    if c = Char.ofNat 46 then [] :: splitDots rest
    else
      match splitDots rest with
      | [] => [[c]]
      | p :: ps => (c :: p) :: ps

def splitDot (s : String) : List String := (splitDots s.toList).map String.mk

/-- `WorkflowParser.validate_workflow`: returns the list of issues
(duplicate step ids, unknown output references, unknown step-input
references); it raises nothing. -/
def validateWorkflow (wf : Workflow) : List String :=
  let step_ids := wf.steps.map Step.id
  let issues1 : List String :=
    if step_ids.length ≠ (dedupF step_ids).length
    then ["Duplicate step IDs found"] else []
  let issues2 : List String := wf.outputs.foldl (fun acc p =>
    match p.2.from_step with
    | none => acc
    | some ref =>
      if ref = "" then acc
      else
        let parts := splitDot ref
        if 2 ≤ parts.length then
          let step_id := parts.headD ""
          if step_id ∈ step_ids then acc
          else
            let oname := p.1
            acc ++ [s!"Output {oname} references unknown step: {step_id}"]
        else acc) []
  let issues3 : List String := wf.steps.foldl (fun acc step =>
    step.inputs.foldl (fun acc p =>
      match p.2 with
      | .str v =>
        if Char.ofNat 46 ∈ v.toList then
          if listStarts "\x7b\x7b".toList v.toList &&
              strContainsSub v ".outputs." then
            match stepRefScan v.toList with
            | some refStep =>
              if refStep ∈ step_ids then acc
              else
                let sid := step.id
                acc ++ [s!"Step {sid} references unknown step: {refStep}"]
            | none => acc
          else acc
        else acc
      | _ => acc) acc) []
  issues1 ++ issues2 ++ issues3

theorem dedupF_of_nodup_aux :
    ∀ (l acc : List String), (∀ x ∈ l, x ∉ acc) → l.Nodup →
      l.foldl (fun acc k => if k ∈ acc then acc else acc ++ [k]) acc
        = acc ++ l := by
  intro l
  induction l with
  | nil => intro acc _ _; simp
  | cons k ks ih =>
    intro acc hdisj hnd
    rw [List.nodup_cons] at hnd
    rw [List.foldl_cons, if_neg (hdisj k (List.mem_cons_self _ _))]
    rw [ih (acc ++ [k]) ?_ hnd.2]
    · rw [List.append_assoc, List.singleton_append]
    · intro x hx hmem
      rcases List.mem_append.1 hmem with h | h
      · exact hdisj x (List.mem_cons_of_mem _ hx) h
      · exact hnd.1 ((by simpa using h : x = k) ▸ hx)

theorem dedupF_of_nodup {l : List String} (h : l.Nodup) : dedupF l = l := by
  rw [dedupF, dedupF_of_nodup_aux l [] (by simp) h, List.nil_append]

/-! ### Claim theorems for the parser (C1, C2, C8) -/

/-- C1: For every workflow whose step dependency graph is acyclic (and
whose step ids are distinct, as every successfully parsed workflow's are),
`_compute_execution_order` succeeds and produces an `execution_order`
containing every step id exactly once, in which every step id appears
after every id in its `depends_on` list; and any successful
`parse_workflow_data` run over these steps carries exactly this order. -/
theorem c1_execution_order_topological (steps : List Step) (g : Graph)
    (hg : buildDependencyGraph steps = .ok g)
    (hnd : (steps.map Step.id).Nodup)
    (hacyc : ∀ k, ¬ DepPath g k k) :
    ∃ order, computeExecutionOrder g steps.length = .ok order ∧
      (∀ s ∈ steps, order.count s.id = 1) ∧
      (∀ s ∈ steps, ∀ d ∈ s.depends_on,
        order.indexOf d < order.indexOf s.id) ∧
      (∀ raw wf, parseWorkflowData raw = .ok wf → wf.steps = steps →
        wf.execution_order = order) := by
  have hgood := buildGraph_good hg
  have hkeys := buildGraph_keys hg
  have hkeyeq : gkeys g = steps.map Step.id := by
    rw [hkeys, dedupF_of_nodup hnd]
  have hlen : (gkeys g).length = steps.length := by
    rw [hkeyeq]
    exact List.length_map _ _
  have hok := computeExecutionOrder_acyclic_ok hgood hacyc hlen
  obtain ⟨hordnd, hordsub, hordtopo, _⟩ := kahnOrder_spec hgood
  have hfull := kahnOrder_complete hgood hacyc
  refine ⟨kahnOrder g, hok, ?_, ?_, ?_⟩
  · intro s hs
    have hsid : s.id ∈ gkeys g := by
      rw [hkeyeq]
      exact List.mem_map_of_mem Step.id hs
    exact List.count_eq_one_of_mem hordnd (hfull s.id hsid)
  · intro s hs d hd
    have hdg : d ∈ depsOf g s.id := (buildGraph_depsOf_mem hnd hg s hs d).2 hd
    have hsmem : s.id ∈ kahnOrder g := by
      apply hfull
      rw [hkeyeq]
      exact List.mem_map_of_mem Step.id hs
    have hidx : (kahnOrder g).indexOf s.id < (kahnOrder g).length :=
      List.indexOf_lt_length.2 hsmem
    have hget : (kahnOrder g).get ⟨(kahnOrder g).indexOf s.id, hidx⟩ = s.id :=
      List.indexOf_get hidx
    have htake := hordtopo ((kahnOrder g).indexOf s.id) hidx d
      (by rw [hget]; exact hdg)
    exact indexOf_lt_of_mem_take (kahnOrder g) _ htake
  · intro raw wf hwf hsteps
    obtain ⟨_, hg2, ho2⟩ := parseWorkflowData_ok hwf
    rw [hsteps] at hg2 ho2
    rw [hg] at hg2
    cases hg2
    rw [hok] at ho2
    exact (Except.ok.inj ho2).symm

/-- C2: For every workflow over a step dependency graph containing a
cycle, `_compute_execution_order` raises `WorkflowValidationError` with
the circular-dependency message, so `parse_workflow_data` never returns a
`WorkflowDefinition` for those steps (the orchestrator is never reached). -/
theorem c2_cycle_rejected_at_parse (steps : List Step) (g : Graph)
    (hg : buildDependencyGraph steps = .ok g)
    (hcyc : ∃ k, DepPath g k k) :
    computeExecutionOrder g steps.length = .error (.validation
      "Circular dependency detected in workflow steps") ∧
    ∀ raw : RawWorkflow, parseStepList raw.steps = .ok steps →
      (parseWorkflowData raw).isOk = false := by
  have hgood := buildGraph_good hg
  have hkeys := buildGraph_keys hg
  have hns : (gkeys g).length ≤ steps.length := by
    rw [hkeys]
    calc (dedupF (steps.map Step.id)).length
        ≤ (steps.map Step.id).length := dedupF_length_le _
      _ = steps.length := List.length_map _ _
  have herr := computeExecutionOrder_cyclic_error hgood hns hcyc
  refine ⟨herr, ?_⟩
  intro raw hps
  cases hwp : parseWorkflowData raw with
  | error e => rfl
  | ok wf =>
    exfalso
    obtain ⟨hps2, hg2, ho2⟩ := parseWorkflowData_ok hwp
    rw [hps] at hps2
    cases hps2
    rw [hg] at hg2
    cases hg2
    rw [herr] at ho2
    cases ho2

/-- C8: For every raw workflow definition containing two steps with the
same id (more generally, whose step-id list has a duplicate),
`parse_workflow_data` fails: it never returns a `WorkflowDefinition`. -/
theorem c8_duplicate_step_ids_rejected (raw : RawWorkflow)
    (hdup : ¬ (raw.steps.map RawStep.id).Nodup) :
    (parseWorkflowData raw).isOk = false := by
  cases hwp : parseWorkflowData raw with
  | error e => rfl
  | ok wf =>
    exfalso
    obtain ⟨hps, hg, ho⟩ := parseWorkflowData_ok hwp
    obtain ⟨hoeq, hlen⟩ := computeExecutionOrder_ok_eq ho
    have hgood := buildGraph_good hg
    obtain ⟨hordnd, hordsub, _, _⟩ := kahnOrder_spec hgood
    have h1 : (kahnOrder wf.step_dependency_graph).length ≤
        (gkeys wf.step_dependency_graph).length :=
      length_le_of_nodup_subset hordnd hordsub hgood.nodupKeys
    have hkeys := buildGraph_keys hg
    have h2 : (dedupF (wf.steps.map Step.id)).length ≤
        (wf.steps.map Step.id).length := dedupF_length_le _
    have hml : (wf.steps.map Step.id).length = wf.steps.length :=
      List.length_map _ _
    have h3 : (wf.steps.map Step.id).Nodup := by
      apply dedupF_length_eq
      rw [hkeys] at h1
      omega
    apply hdup
    rw [parseStepList_ids hps,
      show (fun s : Step => some s.id) = (some ∘ Step.id) from rfl,
      ← List.map_map]
    exact h3.map (fun a b h => Option.some_injective _ h)

/-! ### Concrete workflows used by the witnesses -/

def c1StepA : Step :=
  .mk { id := "A", type := "shell", command := some "git status" } [] []

def c1StepB : Step :=
  .mk { id := "B", type := "shell", depends_on := ["A"],
        command := some "git status" } [] []

def c1Graph : Graph := [("A", []), ("B", ["A"])]

theorem c1_wit_deps (a : String) :
    depsOf c1Graph a = if a = "B" then ["A"] else [] := by
  unfold c1Graph depsOf
  by_cases hA : a = "A"
  · subst hA
    rw [@List.find?_cons_of_pos _ (fun p => p.1 == "A") ("A", ([] : List String))
      _ (by decide)]
    rfl
  · by_cases hB : a = "B"
    · subst hB
      rw [@List.find?_cons_of_neg _ (fun p => p.1 == "B")
          ("A", ([] : List String)) _ (by decide),
        @List.find?_cons_of_pos _ (fun p => p.1 == "B") ("B", ["A"]) _
          (by decide)]
      rfl
    · rw [@List.find?_cons_of_neg _ (fun p => p.1 == a)
          ("A", ([] : List String)) _
          (by simp only [beq_iff_eq]; exact fun h => hA h.symm),
        @List.find?_cons_of_neg _ (fun p => p.1 == a) ("B", ["A"]) _
          (by simp only [beq_iff_eq]; exact fun h => hB h.symm),
        List.find?_nil, if_neg hB]

theorem c1_wit_path : ∀ a b, DepPath c1Graph a b → a = "B" ∧ b = "A" := by
  intro a b h
  induction h with
  | single hb =>
    rename_i a2 b2
    rw [c1_wit_deps] at hb
    by_cases ha : a2 = "B"
    · rw [if_pos ha] at hb
      exact ⟨ha, by simpa using hb⟩
    · rw [if_neg ha] at hb
      cases hb
  | cons hb hp ih =>
    rename_i a0 b0 c0
    rw [c1_wit_deps] at hb
    by_cases ha : a0 = "B"
    · exact ⟨ha, ih.2⟩
    · rw [if_neg ha] at hb
      cases hb

theorem c1Graph_acyclic : ∀ k, ¬ DepPath c1Graph k k := by
  intro k hk
  obtain ⟨h1, h2⟩ := c1_wit_path k k hk
  rw [h1] at h2
  exact absurd h2 (by decide)

def c2StepA : Step :=
  .mk { id := "A", type := "shell", depends_on := ["B"],
        command := some "git status" } [] []

def c2StepB : Step :=
  .mk { id := "B", type := "shell", depends_on := ["A"],
        command := some "git status" } [] []

def c2Graph : Graph := [("A", ["B"]), ("B", ["A"])]

theorem c2Graph_cycle : ∃ k, DepPath c2Graph k k :=
  ⟨"A", DepPath.cons (b := "B") (by decide)
    (DepPath.single (by decide))⟩

def c8Raw : RawWorkflow :=
  { name := some "wf", version := some "1",
    steps := [.mk { id := some "a", type := some "shell",
                    command := some "git status" } [] [],
              .mk { id := some "a", type := some "shell",
                    command := some "npm test" } [] []] }

/-! ### Witness theorems for C1, C2, C8 -/

theorem c1_execution_order_topological_witness :
    (buildDependencyGraph [c1StepA, c1StepB] = .ok c1Graph) ∧
    (([c1StepA, c1StepB].map Step.id).Nodup) ∧
    (∃ order,
      computeExecutionOrder c1Graph [c1StepA, c1StepB].length = .ok order ∧
      (∀ s ∈ [c1StepA, c1StepB], order.count s.id = 1) ∧
      (∀ s ∈ [c1StepA, c1StepB], ∀ d ∈ s.depends_on,
        order.indexOf d < order.indexOf s.id) ∧
      (∀ raw wf, parseWorkflowData raw = .ok wf →
        wf.steps = [c1StepA, c1StepB] → wf.execution_order = order)) :=
  ⟨rfl, by decide,
    c1_execution_order_topological [c1StepA, c1StepB] c1Graph rfl
      (by decide) c1Graph_acyclic⟩

theorem c2_cycle_rejected_at_parse_witness :
    (buildDependencyGraph [c2StepA, c2StepB] = .ok c2Graph) ∧
    (∃ k, DepPath c2Graph k k) ∧
    (computeExecutionOrder c2Graph [c2StepA, c2StepB].length =
      .error (.validation "Circular dependency detected in workflow steps") ∧
     ∀ raw : RawWorkflow, parseStepList raw.steps = .ok [c2StepA, c2StepB] →
       (parseWorkflowData raw).isOk = false) :=
  ⟨rfl, c2Graph_cycle,
    c2_cycle_rejected_at_parse [c2StepA, c2StepB] c2Graph rfl
      c2Graph_cycle⟩

theorem c8_duplicate_step_ids_rejected_witness :
    (¬ (c8Raw.steps.map RawStep.id).Nodup) ∧
    (parseWorkflowData c8Raw).isOk = false :=
  ⟨by decide, c8_duplicate_step_ids_rejected c8Raw (by decide)⟩

/-! ### C9: unresolved output references -/

/-- A workflow whose single declared output draws `from` a step id
(`ghost`) that is not in the step list. -/
def c9Raw : RawWorkflow :=
  { name := some "wf", version := some "1",
    outputs := [("result", { fromRef := some "ghost.outputs.x" })],
    steps := [.mk { id := some "a", type := some "shell",
                    command := some "git status" } [] []] }

/-- C9 counterexample: `parse_workflow_data` succeeds on `c9Raw` even
though its output references the unknown step `ghost` — the unresolved
output reference is not rejected at parse time. -/
theorem c9_counterexample :
    (parseWorkflowData c9Raw).isOk = true ∧
    (parseWorkflowData c9Raw).map
      (fun wf => wf.outputs.map (fun p => (p.1, p.2.from_step))) =
      .ok [("result", some "ghost.outputs.x")] ∧
    (parseWorkflowData c9Raw).map (fun wf => wf.steps.map Step.id) =
      .ok ["a"] := ⟨rfl, rfl, rfl⟩

/-- C9 amended: parsing succeeds despite the unresolved output reference;
it is the separate `validate_workflow` lint that reports it as an issue. -/
theorem c9_unresolved_output_reference_reported :
    (parseWorkflowData c9Raw).map validateWorkflow =
      .ok ["Output result references unknown step: ghost"] := rfl

/-! # The secure workflow engine (`secure_workflow_engine.py`) -/

/-! ### Character and string helpers (structural, so that concrete runs
reduce in the kernel) -/

def toLowerCh (c : Char) : Char :=
  if 'A' ≤ c && c ≤ 'Z' then Char.ofNat (c.toNat + 32) else c

def lowerStr (s : String) : String := String.mk (s.toList.map toLowerCh)

def isSpaceCh (c : Char) : Bool :=
  c == ' ' || c == Char.ofNat 9 || c == Char.ofNat 10 || c == Char.ofNat 13
    || c == Char.ofNat 11 || c == Char.ofNat 12

/-- Python `str.strip()`. -/
def trimStr (s : String) : String :=
  String.mk (((s.toList.dropWhile isSpaceCh).reverse.dropWhile
    isSpaceCh).reverse)

/-- Python slicing `s[:n]` (by characters). -/
def strTake (s : String) (n : Nat) : String := String.mk (s.toList.take n)

def strLen (s : String) : Nat := s.toList.length

/-! ### A small regular-expression engine

Just enough to embed the fixed patterns of `SecureInputValidator` and the
sanitizers: literals, character classes, `.`, `*`/`+` over single-character
atoms, and top-level alternation.  Matching is backtracking with greedy
quantifiers (longest candidate first), like Python's `re`; all patterns
are matched case-insensitively (every source pattern is compiled with
`re.IGNORECASE` or is case-insensitive anyway), so atoms compare the
lowercased input character. -/

inductive Ratom where
  | lit (c : Char) : Ratom
  | cls (cs : List Char) : Ratom
  | ncls (cs : List Char) : Ratom
  | dot : Ratom
deriving Repr, DecidableEq

inductive Rpiece where
  | once (a : Ratom) : Rpiece
  | star (a : Ratom) : Rpiece
  | plus (a : Ratom) : Rpiece
  | alts (l : List (List Rpiece)) : Rpiece
deriving Repr

def atomMatches (a : Ratom) (c : Char) : Bool :=
  match a with
  | .lit p => toLowerCh c == p
  | .cls cs => cs.contains (toLowerCh c)
  | .ncls cs => !cs.contains (toLowerCh c)
  | .dot => c != Char.ofNat 10

/-- All remainders after consuming a (greedy-first) number of `a`-matching
characters, longest consumption first; the zero-consumption remainder is
last. -/
def munches (a : Ratom) : List Char → List (List Char)
  | [] => [[]]
  | c :: cs =>
    if atomMatches a c then munches a cs ++ [c :: cs] else [c :: cs]

mutual

/-- Structural size of a piece; drives the fuel of the matcher. -/
def sizePiece : Rpiece → Nat
  | .once _ => 1
  | .star _ => 1
  | .plus _ => 1
  | .alts l => 1 + sizeAlts l

def sizeAlts : List (List Rpiece) → Nat
  | [] => 0
  | qs :: rest => sizePieces qs + sizeAlts rest

def sizePieces : List Rpiece → Nat
  | [] => 0
  | p :: ps => sizePiece p + sizePieces ps

end

/-- Remainders of matching a piece sequence at the head of the input, in
backtracking priority order (the head of the result is the match Python's
engine commits to).  The fuel decreases on every piece processed, also
into each alternative of an alternation; `sizePieces r + 1` is always
enough. -/
def matchPiecesF : Nat → List Rpiece → List Char → List (List Char)
  | 0, _, _ => []
  | _ + 1, [], cs => [cs]
  | fuel + 1, p :: ps, cs =>
    let heads : List (List Char) :=
      match p with
      | .once a =>
        match cs with
        | [] => []
        | c :: cs2 => if atomMatches a c then [cs2] else []
      | .star a => munches a cs
      | .plus a => (munches a cs).dropLast
      | .alts l => (l.map (fun qs => matchPiecesF fuel qs cs)).flatten
    (heads.map (fun rem => matchPiecesF fuel ps rem)).flatten

/-- Remainders of matching a piece sequence, with sufficient fuel. -/
def matchPieces (r : List Rpiece) (cs : List Char) : List (List Char) :=
  matchPiecesF (sizePieces r + 1) r cs

/-- `re.search` as a Boolean: does the pattern match at some position? -/
def rxSearchAt : List Rpiece → List Char → Bool
  | r, [] => !(matchPieces r []).isEmpty
  | r, c :: cs => !(matchPieces r (c :: cs)).isEmpty || rxSearchAt r cs

def rxSearch (r : List Rpiece) (s : String) : Bool := rxSearchAt r s.toList

/-- `re.sub`: scan left to right, replacing each (leftmost, then
backtracking-first) match; the fuel is an upper bound on positions and is
never exhausted for the patterns used here (each consumes at least one
character). -/
def rxSubstAux (r : List Rpiece) (rep : List Char) :
    Nat → List Char → List Char
  | 0, cs => cs
  | _ + 1, [] => []
  | fuel + 1, c :: cs =>
    match (matchPieces r (c :: cs)).head? with
    | some rem =>
      if rem.length < (c :: cs).length then
        rep ++ rxSubstAux r rep fuel rem
      else c :: rxSubstAux r rep fuel cs
    | none => c :: rxSubstAux r rep fuel cs

def rxSubst (r : List Rpiece) (rep : String) (s : String) : String :=
  String.mk (rxSubstAux r rep.toList (s.toList.length + 1) s.toList)

/-! Pattern-building helpers. -/

def rlits (s : String) : List Rpiece := s.toList.map (fun c => .once (.lit c))

def wsChars : List Char :=
  [' ', Char.ofNat 9, Char.ofNat 10, Char.ofNat 13, Char.ofNat 11,
   Char.ofNat 12]

/-- `\s*` -/
def wsStar : Rpiece := .star (.cls wsChars)

/-- `\s+` -/
def wsPlus : Rpiece := .plus (.cls wsChars)

/-- `\S+` -/
def nonWsPlus : Rpiece := .plus (.ncls wsChars)

/-- `.*` -/
def dotStar : Rpiece := .star .dot

/-! ### SHA-256 (`hashlib.sha256(...).hexdigest()`), executable -/

def w32 : Nat := 4294967296

def add32 (a b : Nat) : Nat := (a + b) % w32

def rotr (n x : Nat) : Nat := ((x >>> n) ||| (x <<< (32 - n))) % w32

def shaCh (e f g : Nat) : Nat := (e &&& f) ^^^ (((e ^^^ (w32 - 1))) &&& g)

def shaMaj (a b c : Nat) : Nat := (a &&& b) ^^^ (a &&& c) ^^^ (b &&& c)

def bigSigma0 (x : Nat) : Nat := (rotr 2 x) ^^^ (rotr 13 x) ^^^ (rotr 22 x)

def bigSigma1 (x : Nat) : Nat := (rotr 6 x) ^^^ (rotr 11 x) ^^^ (rotr 25 x)

def smallSigma0 (x : Nat) : Nat := (rotr 7 x) ^^^ (rotr 18 x) ^^^ (x >>> 3)

def smallSigma1 (x : Nat) : Nat := (rotr 17 x) ^^^ (rotr 19 x) ^^^ (x >>> 10)

def kRounds0 : List Nat :=
  [0x428a2f98, 0x71374491, 0xb5c0fbcf, 0xe9b5dba5,
   0x3956c25b, 0x59f111f1, 0x923f82a4, 0xab1c5ed5]

def kRounds1 : List Nat :=
  [0xd807aa98, 0x12835b01, 0x243185be, 0x550c7dc3,
   0x72be5d74, 0x80deb1fe, 0x9bdc06a7, 0xc19bf174]

def kRounds2 : List Nat :=
  [0xe49b69c1, 0xefbe4786, 0x0fc19dc6, 0x240ca1cc,
   0x2de92c6f, 0x4a7484aa, 0x5cb0a9dc, 0x76f988da]

def kRounds3 : List Nat :=
  [0x983e5152, 0xa831c66d, 0xb00327c8, 0xbf597fc7,
   0xc6e00bf3, 0xd5a79147, 0x06ca6351, 0x14292967]

def kRounds4 : List Nat :=
  [0x27b70a85, 0x2e1b2138, 0x4d2c6dfc, 0x53380d13,
   0x650a7354, 0x766a0abb, 0x81c2c92e, 0x92722c85]

def kRounds5 : List Nat :=
  [0xa2bfe8a1, 0xa81a664b, 0xc24b8b70, 0xc76c51a3,
   0xd192e819, 0xd6990624, 0xf40e3585, 0x106aa070]

def kRounds6 : List Nat :=
  [0x19a4c116, 0x1e376c08, 0x2748774c, 0x34b0bcb5,
   0x391c0cb3, 0x4ed8aa4a, 0x5b9cca4f, 0x682e6ff3]

def kRounds7 : List Nat :=
  [0x748f82ee, 0x78a5636f, 0x84c87814, 0x8cc70208,
   0x90befffa, 0xa4506ceb, 0xbef9a3f7, 0xc67178f2]

def K256 : List Nat :=
  kRounds0 ++ kRounds1 ++ kRounds2 ++ kRounds3 ++ kRounds4 ++ kRounds5 ++
    kRounds6 ++ kRounds7

def H256 : List Nat :=
  [0x6a09e667, 0xbb67ae85, 0x3c6ef372, 0xa54ff53a, 0x510e527f, 0x9b05688c,
   0x1f83d9ab, 0x5be0cd19]

def bigEndian8 (n : Nat) : List Nat :=
  [(n >>> 56) % 256, (n >>> 48) % 256, (n >>> 40) % 256, (n >>> 32) % 256,
   (n >>> 24) % 256, (n >>> 16) % 256, (n >>> 8) % 256, n % 256]

def sha256pad (ms : List Nat) : List Nat :=
  let z := (119 - (ms.length % 64)) % 64
  ms ++ [128] ++ List.replicate z 0 ++ bigEndian8 (8 * ms.length)

def toBlocksF : Nat → List Nat → List (List Nat)
  | 0, _ => []
  | _ + 1, [] => []
  | fuel + 1, l => l.take 64 :: toBlocksF fuel (l.drop 64)

def bytesToWords : List Nat → List Nat
  | b0 :: b1 :: b2 :: b3 :: rest =>
    (((b0 <<< 24) + (b1 <<< 16) + (b2 <<< 8) + b3) % w32) :: bytesToWords rest
  | _ => []

/-- One message-schedule extension step; `wrev` holds the schedule so far,
most recent word first. -/
def scheduleStep (wrev : List Nat) : List Nat :=
  add32 (add32 (smallSigma1 (wrev.getD 1 0)) (wrev.getD 6 0))
    (add32 (smallSigma0 (wrev.getD 14 0)) (wrev.getD 15 0)) :: wrev

def buildSchedule (w16 : List Nat) : List Nat :=
  ((List.range 48).foldl (fun acc _ => scheduleStep acc) w16.reverse).reverse

def compressStep (st : List Nat) (wk : Nat × Nat) : List Nat :=
  match st with
  | [a, b, c, d, e, f, g, h] =>
    let t1 := add32 (add32 (add32 h (bigSigma1 e))
      (add32 (shaCh e f g) wk.2)) wk.1
    let t2 := add32 (bigSigma0 a) (shaMaj a b c)
    [add32 t1 t2, a, b, c, add32 d t1, e, f, g]
  | other => other

def compressBlock (h : List Nat) (blk : List Nat) : List Nat :=
  let w := buildSchedule (bytesToWords blk)
  let fin := (w.zip K256).foldl compressStep h
  (h.zip fin).map (fun p => add32 p.1 p.2)

def wordBytes (n : Nat) : List Nat :=
  [(n >>> 24) % 256, (n >>> 16) % 256, (n >>> 8) % 256, n % 256]

def sha256bytes (ms : List Nat) : List Nat :=
  let padded := sha256pad ms
  let blocks := toBlocksF (padded.length + 1) padded
  ((blocks.foldl compressBlock H256).map wordBytes).flatten

def utf8Bytes (n : Nat) : List Nat :=
  if n < 128 then [n]
  else if n < 2048 then [192 + n / 64, 128 + n % 64]
  else if n < 65536 then
    [224 + n / 4096, 128 + (n / 64) % 64, 128 + n % 64]
  else
    [240 + n / 262144, 128 + (n / 4096) % 64, 128 + (n / 64) % 64,
     128 + n % 64]

def strBytes (s : String) : List Nat :=
  (s.toList.map (fun c => utf8Bytes c.toNat)).flatten

def hexDigit (n : Nat) : Char :=
  if n < 10 then Char.ofNat (48 + n) else Char.ofNat (87 + n)

def byteHex (b : Nat) : List Char := [hexDigit (b / 16), hexDigit (b % 16)]

/-- `hashlib.sha256(s.encode()).hexdigest()`. -/
def sha256hex (s : String) : String :=
  String.mk (((sha256bytes (strBytes s)).map byteHex).flatten)

set_option maxRecDepth 10000 in
/-- FIPS 180-4 test vector, checking the embedding of SHA-256. -/
theorem sha256hex_abc :
    sha256hex "abc" =
      "ba7816bf8f01cfea414140de5dae2223b00361a396177a9cb410ff61f20015ad" := by
  decide

/-! ### Key-sorted JSON serialization (`json.dumps(..., sort_keys=True)`) -/

/-- Python string comparison (by code point), as used by `sort_keys`. -/
def listCharLe : List Char → List Char → Bool
  | [], _ => true
  | _ :: _, [] => false
  | a :: as, b :: bs =>
    if a.toNat < b.toNat then true
    else if b.toNat < a.toNat then false
    else listCharLe as bs

def keyLe (a b : String) : Bool := listCharLe a.toList b.toList

theorem listCharLe_total : ∀ a b : List Char,
    listCharLe a b = true ∨ listCharLe b a = true := by
  intro a
  induction a with
  | nil => intro b; exact Or.inl rfl
  | cons x xs ih =>
    intro b
    cases b with
    | nil => exact Or.inr rfl
    | cons y ys =>
      simp only [listCharLe]
      by_cases h1 : x.toNat < y.toNat
      · rw [if_pos h1]
        exact Or.inl rfl
      · rw [if_neg h1]
        by_cases h2 : y.toNat < x.toNat
        · rw [if_pos h2, if_pos h2]
          exact Or.inr rfl
        · rw [if_neg h2, if_neg h2, if_neg h1]
          exact ih ys

theorem listCharLe_trans : ∀ a b c : List Char,
    listCharLe a b = true → listCharLe b c = true →
    listCharLe a c = true := by
  intro a
  induction a with
  | nil => intro b c _ _; rfl
  | cons x xs ih =>
    intro b c hab hbc
    cases b with
    | nil => simp [listCharLe] at hab
    | cons y ys =>
      cases c with
      | nil => simp [listCharLe] at hbc
      | cons z zs =>
        simp only [listCharLe] at hab hbc ⊢
        by_cases h1 : x.toNat < y.toNat
        · by_cases h2 : y.toNat < z.toNat
          · rw [if_pos (by omega : x.toNat < z.toNat)]
          · rw [if_neg h2] at hbc
            by_cases h3 : z.toNat < y.toNat
            · rw [if_pos h3] at hbc
              cases hbc
            · rw [if_pos (by omega : x.toNat < z.toNat)]
        · rw [if_neg h1] at hab
          by_cases h1b : y.toNat < x.toNat
          · rw [if_pos h1b] at hab
            cases hab
          · rw [if_neg h1b] at hab
            by_cases h2 : y.toNat < z.toNat
            · rw [if_pos (by omega : x.toNat < z.toNat)]
            · rw [if_neg h2] at hbc
              by_cases h3 : z.toNat < y.toNat
              · rw [if_pos h3] at hbc
                cases hbc
              · rw [if_neg h3] at hbc
                rw [if_neg (by omega : ¬ x.toNat < z.toNat),
                  if_neg (by omega : ¬ z.toNat < x.toNat)]
                exact ih ys zs hab hbc

theorem listCharLe_antisymm : ∀ a b : List Char,
    listCharLe a b = true → listCharLe b a = true → a = b := by
  intro a
  induction a with
  | nil =>
    intro b _ hba
    cases b with
    | nil => rfl
    | cons y ys => simp [listCharLe] at hba
  | cons x xs ih =>
    intro b hab hba
    cases b with
    | nil => simp [listCharLe] at hab
    | cons y ys =>
      simp only [listCharLe] at hab hba
      by_cases h1 : x.toNat < y.toNat
      · rw [if_neg (by omega : ¬ y.toNat < x.toNat),
          if_pos h1] at hba
        cases hba
      · rw [if_neg h1] at hab
        by_cases h2 : y.toNat < x.toNat
        · rw [if_pos h2] at hab
          cases hab
        · rw [if_neg h2] at hab
          rw [if_neg h2, if_neg h1] at hba
          have hx : x = y := by
            apply Char.ext
            apply UInt32.ext
            show x.toNat = y.toNat
            omega
          rw [hx, ih ys hab hba]

theorem keyLe_antisymm {a b : String} (h1 : keyLe a b = true)
    (h2 : keyLe b a = true) : a = b := by
  have := listCharLe_antisymm a.toList b.toList h1 h2
  cases a
  cases b
  simpa [String.toList] using congrArg String.mk this

/-- Insertion sort by key, mirroring `sorted` over dictionary keys. -/
def insertByKey (p : String × String) :
    List (String × String) → List (String × String)
  | [] => [p]
  | q :: qs => if keyLe p.1 q.1 then p :: q :: qs else q :: insertByKey p qs

def sortByKey : List (String × String) → List (String × String)
  | [] => []
  | p :: ps => insertByKey p (sortByKey ps)

def pairLe (p q : String × String) : Prop := keyLe p.1 q.1 = true

theorem insertByKey_perm (p : String × String) :
    ∀ l, List.Perm (insertByKey p l) (p :: l) := by
  intro l
  induction l with
  | nil => exact List.Perm.refl _
  | cons q qs ih =>
    simp only [insertByKey]
    by_cases h : keyLe p.1 q.1 = true
    · rw [if_pos h]
    · rw [if_neg h]
      exact (List.Perm.cons q ih).trans (List.Perm.swap p q qs)

theorem sortByKey_perm : ∀ l, List.Perm (sortByKey l) l := by
  intro l
  induction l with
  | nil => exact List.Perm.refl _
  | cons p ps ih =>
    exact (insertByKey_perm p (sortByKey ps)).trans (List.Perm.cons p ih)

theorem insertByKey_sorted (p : String × String) :
    ∀ l, List.Pairwise pairLe l →
      List.Pairwise pairLe (insertByKey p l) := by
  intro l
  induction l with
  | nil => intro _; exact List.pairwise_singleton _ _
  | cons q qs ih =>
    intro hs
    rw [List.pairwise_cons] at hs
    simp only [insertByKey]
    by_cases h : keyLe p.1 q.1 = true
    · rw [if_pos h]
      rw [List.pairwise_cons]
      refine ⟨?_, List.pairwise_cons.2 hs⟩
      intro r hr
      rcases List.mem_cons.1 hr with rfl | hr
      · exact h
      · exact listCharLe_trans _ _ _ h (hs.1 r hr)
    · rw [if_neg h]
      rw [List.pairwise_cons]
      refine ⟨?_, ih hs.2⟩
      intro r hr
      have hqp : keyLe q.1 p.1 = true := by
        rcases listCharLe_total p.1.toList q.1.toList with h2 | h2
        · exact absurd h2 h
        · exact h2
      have := (insertByKey_perm p qs).mem_iff.1 hr
      rcases List.mem_cons.1 this with rfl | hr2
      · exact hqp
      · exact hs.1 r hr2

theorem sortByKey_sorted : ∀ l, List.Pairwise pairLe (sortByKey l) := by
  intro l
  induction l with
  | nil => exact List.Pairwise.nil
  | cons p ps ih => exact insertByKey_sorted p (sortByKey ps) ih

theorem assoc_entry_eq {α : Type} {l : List (String × α)}
    (hnd : (l.map Prod.fst).Nodup) {p q : String × α}
    (hp : p ∈ l) (hq : q ∈ l) (h : p.1 = q.1) : p = q := by
  induction l with
  | nil => cases hp
  | cons a l ih =>
    rw [List.map_cons, List.nodup_cons] at hnd
    rcases List.mem_cons.1 hp with hp1 | hp1 <;>
      rcases List.mem_cons.1 hq with hq1 | hq1
    · exact hp1.trans hq1.symm
    · exfalso
      subst hp1
      exact hnd.1 (h ▸ List.mem_map_of_mem Prod.fst hq1)
    · exfalso
      subst hq1
      exact hnd.1 (h ▸ List.mem_map_of_mem Prod.fst hp1)
    · exact ih hnd.2 hp1 hq1

theorem sorted_nodupkeys_unique :
    ∀ (l1 l2 : List (String × String)), List.Perm l1 l2 →
      List.Pairwise pairLe l1 → List.Pairwise pairLe l2 →
      (l1.map Prod.fst).Nodup → l1 = l2 := by
  intro l1
  induction l1 with
  | nil =>
    intro l2 hperm _ _ _
    exact (hperm.nil_eq).symm ▸ rfl
  | cons p t1 ih =>
    intro l2 hperm hs1 hs2 hnd
    cases l2 with
    | nil => exact absurd hperm.symm.nil_eq (by simp)
    | cons q t2 =>
      have hq1 : q ∈ p :: t1 := hperm.mem_iff.2 (List.mem_cons_self _ _)
      have hp2 : p ∈ q :: t2 := hperm.mem_iff.1 (List.mem_cons_self _ _)
      have hpq : p = q := by
        rcases List.mem_cons.1 hq1 with h | hq1t
        · exact h.symm
        · rcases List.mem_cons.1 hp2 with h | hp2t
          · exact h
          · have h1 : pairLe p q := (List.pairwise_cons.1 hs1).1 q hq1t
            have h2 : pairLe q p := (List.pairwise_cons.1 hs2).1 p hp2t
            exact assoc_entry_eq hnd (List.mem_cons_self _ _) hq1
              (keyLe_antisymm h1 h2)
      subst hpq
      have hperm2 : List.Perm t1 t2 := hperm.cons_inv
      rw [ih t2 hperm2 (List.pairwise_cons.1 hs1).2
        (List.pairwise_cons.1 hs2).2
        (List.nodup_cons.1 (by simpa using hnd)).2]

/-! ### `json.dumps` -/

def joinComma : List String → String
  | [] => ""
  | [x] => x
  | x :: xs => x ++ ", " ++ joinComma xs

/-- JSON string escaping; the escapes exercised by this development
(quote, backslash, newline, tab, carriage return). -/
def dumpStrChars : List Char → List Char
  | [] => []
  | c :: cs =>
    if c = Char.ofNat 34 then Char.ofNat 92 :: Char.ofNat 34 :: dumpStrChars cs
    else if c = Char.ofNat 92 then
      Char.ofNat 92 :: Char.ofNat 92 :: dumpStrChars cs
    else if c = Char.ofNat 10 then Char.ofNat 92 :: 'n' :: dumpStrChars cs
    else if c = Char.ofNat 9 then Char.ofNat 92 :: 't' :: dumpStrChars cs
    else if c = Char.ofNat 13 then Char.ofNat 92 :: 'r' :: dumpStrChars cs
    else c :: dumpStrChars cs

def dumpStr (s : String) : String :=
  String.mk (Char.ofNat 34 :: (dumpStrChars s.toList ++ [Char.ofNat 34]))

mutual

/-- `json.dumps(v, sort_keys=True)` with the default separators
`(', ', ': ')`: object keys are serialized in sorted order at every
level. -/
def dumpJson : Json → String
  | .null => "null"
  | .bool b => if b then "true" else "false"
  | .int n => toString n
  | .numLit s => s
  | .str s => dumpStr s
  | .arr l =>
    "[" ++ joinComma (dumpJsonList l) ++ "]"
  | .obj l =>
    String.mk [Char.ofNat 123] ++
      joinComma ((sortByKey (dumpObjList l)).map
        (fun p => dumpStr p.1 ++ ": " ++ p.2)) ++
      String.mk [Char.ofNat 125]

def dumpJsonList : List Json → List String
  | [] => []
  | v :: vs => dumpJson v :: dumpJsonList vs

def dumpObjList : List (String × Json) → List (String × String)
  | [] => []
  | p :: ps => (p.1, dumpJson p.2) :: dumpObjList ps

end

/-! ### Cache keys (`generate_cache_key` / `_generate_cache_key`) -/

/-- Association-list lookup, modelling `d.get(k)` / `k in d` on a Python
dict represented by its insertion-ordered entry list. -/
def alookup {b : Type} : String → List (String × b) → Option b
  | _, [] => none
  | k, p :: ps => if p.1 = k then some p.2 else alookup k ps

/-- `'|'.join(components)`. -/
def joinBar : List String → String
  | [] => ""
  | [x] => x
  | x :: xs => x ++ "|" ++ joinBar xs

def optJsonStr : Option String → Json
  | none => Json.null
  | some s => Json.str s

def strDictJson (l : List (String × String)) : Json :=
  Json.obj (l.map (fun p => (p.1, Json.str p.2)))

/-- `asdict` applied to a `StepOutput` dataclass. -/
def stepOutputJson (o : StepOutputD) : Json :=
  Json.obj [("name", Json.str o.name), ("type", optJsonStr o.type),
    ("description", optJsonStr o.description),
    ("from_source", optJsonStr o.from_source)]

/-- The non-recursive fields of `asdict(step)`, in dataclass declaration
order. -/
def asdictCore (c : StepCore) : List (String × Json) :=
  [("id", Json.str c.id),
   ("type", Json.str c.type),
   ("name", optJsonStr c.name),
   ("description", optJsonStr c.description),
   ("depends_on", Json.arr (c.depends_on.map Json.str)),
   ("when", optJsonStr c.when),
   ("timeout", Json.int c.timeout),
   ("retry", Json.obj c.retry),
   ("cache", Json.obj c.cache),
   ("inputs", Json.obj c.inputs),
   ("outputs", Json.obj (c.outputs.map (fun p => (p.1, stepOutputJson p.2)))),
   ("command", optJsonStr c.command),
   ("working_directory", optJsonStr c.working_directory),
   ("environment", strDictJson c.environment),
   ("prompt", optJsonStr c.prompt),
   ("model", Json.str c.model),
   ("security_profile", Json.str c.security_profile),
   ("use_cache", Json.bool c.use_cache),
   ("max_tokens", match c.max_tokens with
     | none => Json.null
     | some n => Json.int n),
   ("temperature", Json.numLit c.temperature),
   ("condition", optJsonStr c.condition),
   ("message", optJsonStr c.message),
   ("on_failure", Json.str c.on_failure),
   ("template", optJsonStr c.template),
   ("output", optJsonStr c.output),
   ("engine", Json.str c.engine),
   ("url", optJsonStr c.url),
   ("method", Json.str c.method),
   ("headers", strDictJson c.headers),
   ("body", optJsonStr c.body)]

mutual

/-- `asdict(step)`: the `WorkflowStep` dataclass converted recursively to
plain dicts, `then_steps` / `else_steps` included. -/
def asdictStep : Step → Json
  | .mk c ts es =>
    Json.obj (asdictCore c ++
      [("then_steps", Json.arr (asdictSteps ts)),
       ("else_steps", Json.arr (asdictSteps es))])

def asdictSteps : List Step → List Json
  | [] => []
  | s :: ss => asdictStep s :: asdictSteps ss

end

/-- `WorkflowParser.generate_cache_key`.  With a custom `key` entry in the
step cache config the template engine renders it (`render` stands for
`self.template_engine.render`); otherwise the key is the SHA-256 of
`'|'.join([step.id, step.type, json.dumps(step.inputs, sort_keys=True),
json.dumps(asdict(step), sort_keys=True, default=str)])` — note the fourth
component is the step record itself, and `context` is unused. -/
def parserGenerateCacheKey (render : Json → List (String × Json) → String)
    (step : Step) (context : List (String × Json)) : String :=
  match alookup "key" step.cache with
  | some t => render t context
  | none =>
    sha256hex (joinBar [step.id, step.type,
      dumpJson (Json.obj step.inputs), dumpJson (asdictStep step)])

/-- `SecureWorkflowEngine._generate_cache_key`: SHA-256 of
`'|'.join([step.id, step.type, json.dumps(step.inputs, sort_keys=True,
default=str), json.dumps(context.get('inputs', \x7b\x7d), sort_keys=True,
default=str)])`. -/
def engineGenerateCacheKey (step : Step)
    (context : List (String × Json)) : String :=
  sha256hex (joinBar [step.id, step.type,
    dumpJson (Json.obj step.inputs),
    dumpJson ((alookup "inputs" context).getD (Json.obj []))])

/-- The default cache key as the specification words it: the SHA-256 hex
digest of the ordered tuple (step id, step type, step's declared inputs
serialized with sorted keys, execution inputs serialized with sorted
keys). -/
def specDefaultCacheKey (step : Step)
    (context : List (String × Json)) : String :=
  sha256hex (step.id ++ "|" ++ step.type ++ "|" ++
    dumpJson (Json.obj step.inputs) ++ "|" ++
    dumpJson ((alookup "inputs" context).getD (Json.obj [])))

theorem dumpObjList_eq_map : ∀ l : List (String × Json),
    dumpObjList l = l.map (fun p => (p.1, dumpJson p.2)) := by
  intro l
  induction l with
  | nil => rfl
  | cons p ps ih => rw [dumpObjList, List.map_cons, ih]

/-- Serialization with sorted keys is invariant under reordering of the
entries of an object, provided its keys are distinct. -/
theorem dumpObj_perm {l1 l2 : List (String × Json)}
    (hperm : List.Perm l1 l2) (hnd : (l1.map Prod.fst).Nodup) :
    dumpJson (Json.obj l1) = dumpJson (Json.obj l2) := by
  have hmap : List.Perm (dumpObjList l1) (dumpObjList l2) := by
    rw [dumpObjList_eq_map, dumpObjList_eq_map]
    exact hperm.map _
  have hnd1 : ((dumpObjList l1).map Prod.fst).Nodup := by
    rw [dumpObjList_eq_map]
    have : (l1.map (fun p : String × Json => (p.1, dumpJson p.2))).map
        Prod.fst = l1.map Prod.fst := by
      rw [List.map_map]
      rfl
    rw [this]
    exact hnd
  have hsp : List.Perm (sortByKey (dumpObjList l1))
      (sortByKey (dumpObjList l2)) :=
    ((sortByKey_perm _).trans hmap).trans (sortByKey_perm _).symm
  have hnds : ((sortByKey (dumpObjList l1)).map Prod.fst).Nodup :=
    (((sortByKey_perm (dumpObjList l1)).map Prod.fst).nodup_iff).2 hnd1
  have heq : sortByKey (dumpObjList l1) = sortByKey (dumpObjList l2) :=
    sorted_nodupkeys_unique _ _ hsp (sortByKey_sorted _) (sortByKey_sorted _)
      hnds
  show String.mk [Char.ofNat 123] ++
      joinComma ((sortByKey (dumpObjList l1)).map
        (fun p => dumpStr p.1 ++ ": " ++ p.2)) ++
      String.mk [Char.ofNat 125] = _
  rw [heq]
  rfl

theorem strAppend_assoc (a b c : String) : a ++ b ++ c = a ++ (b ++ c) := by
  cases a
  cases b
  cases c
  show String.mk _ = String.mk _
  rw [List.append_assoc]

theorem joinBar_four (a b c d : String) :
    joinBar [a, b, c, d] = a ++ "|" ++ b ++ "|" ++ c ++ "|" ++ d := by
  simp only [joinBar, strAppend_assoc]

def c7coreA : StepCore :=
  { id := "build", type := "shell", command := some "make",
    inputs := [("b", Json.int 1), ("a", Json.int 2)] }

def c7inputsB : List (String × Json) := [("a", Json.int 2), ("b", Json.int 1)]

def c7vA : List (String × Json) := [("y", Json.int 3), ("x", Json.int 4)]
def c7vB : List (String × Json) := [("x", Json.int 4), ("y", Json.int 3)]

def c7pstep : Step :=
  .mk { id := "build", type := "shell", command := some "make" } [] []

def c7pctx : List (String × Json) :=
  [("inputs", Json.obj [("x", Json.str "1")])]

def c7pctx2 : List (String × Json) :=
  [("inputs", Json.obj [("x", Json.str "2")])]

/-- C7 (amended): the engine's `_generate_cache_key` — the function that
the step cache of `_execute_step_securely` actually uses — returns the
SHA-256 hex digest of the ordered tuple (step id, step type, declared
inputs serialized with sorted keys, execution inputs serialized with
sorted keys), and it is pure: reordering the entries of the declared
inputs or of the execution inputs (distinct keys) leaves the key
unchanged.  The parser's `generate_cache_key` does not satisfy the
claimed tuple: see the counterexample. -/
theorem c7_default_cache_key (c : StepCore) (ts es : List Step)
    (i2 v v2 rest : List (String × Json))
    (hpi : List.Perm c.inputs i2) (hndi : (c.inputs.map Prod.fst).Nodup)
    (hpv : List.Perm v v2) (hndv : (v.map Prod.fst).Nodup) :
    engineGenerateCacheKey (.mk c ts es) (("inputs", Json.obj v) :: rest) =
      specDefaultCacheKey (.mk c ts es) (("inputs", Json.obj v) :: rest) ∧
    engineGenerateCacheKey (.mk c ts es) (("inputs", Json.obj v) :: rest) =
      engineGenerateCacheKey (.mk { c with inputs := i2 } ts es)
        (("inputs", Json.obj v2) :: rest) := by
  have h1 : dumpJson (Json.obj c.inputs) = dumpJson (Json.obj i2) :=
    dumpObj_perm hpi hndi
  have h2 : dumpJson (Json.obj v) = dumpJson (Json.obj v2) :=
    dumpObj_perm hpv hndv
  have ha : alookup "inputs" (("inputs", Json.obj v) :: rest) =
      some (Json.obj v) := by
    simp [alookup]
  have hb : alookup "inputs" (("inputs", Json.obj v2) :: rest) =
      some (Json.obj v2) := by
    simp [alookup]
  constructor
  · simp only [engineGenerateCacheKey, specDefaultCacheKey, joinBar_four]
  · simp only [engineGenerateCacheKey, joinBar_four, ha, hb,
      Option.getD_some, Step.inputs, Step.id, Step.type, Step.core, h2]
    simp only [h1]

theorem c7_default_cache_key_witness :
    List.Perm c7coreA.inputs c7inputsB ∧
    (c7coreA.inputs.map Prod.fst).Nodup ∧
    List.Perm c7vA c7vB ∧
    (c7vA.map Prod.fst).Nodup ∧
    (engineGenerateCacheKey (.mk c7coreA [] [])
        (("inputs", Json.obj c7vA) :: []) =
      specDefaultCacheKey (.mk c7coreA [] [])
        (("inputs", Json.obj c7vA) :: []) ∧
    engineGenerateCacheKey (.mk c7coreA [] [])
        (("inputs", Json.obj c7vA) :: []) =
      engineGenerateCacheKey (.mk { c7coreA with inputs := c7inputsB } [] [])
        (("inputs", Json.obj c7vB) :: [])) :=
  ⟨List.Perm.swap _ _ _, by decide, List.Perm.swap _ _ _, by decide,
   c7_default_cache_key c7coreA [] [] c7inputsB c7vA c7vB []
     (List.Perm.swap _ _ _) (by decide) (List.Perm.swap _ _ _) (by decide)⟩

set_option maxRecDepth 40000 in
/-- C7 counterexample: for a step with no custom cache-key template, the
parser's public `generate_cache_key` does not return the SHA-256 of the
claimed tuple — its fourth component is `json.dumps(asdict(step), ...)`
(the step record itself), not the execution inputs; the execution context
does not enter the default key at all. -/
theorem c7_counterexample :
    parserGenerateCacheKey (fun _ _ => "") c7pstep c7pctx ≠
      specDefaultCacheKey c7pstep c7pctx ∧
    parserGenerateCacheKey (fun _ _ => "") c7pstep c7pctx =
      parserGenerateCacheKey (fun _ _ => "") c7pstep c7pctx2 :=
  ⟨by decide, rfl⟩

/-! ### `SecureInputValidator` -/

/-- Exceptions of `secure_workflow_engine.py` that this development
distinguishes. -/
inductive EngineExc where
  | securityError (msg : String) : EngineExc
  | valueError (msg : String) : EngineExc
deriving Repr, DecidableEq

def EngineExc.msg : EngineExc → String
  | .securityError m => m
  | .valueError m => m

instance exceptDecEq {e a : Type} [DecidableEq e] [DecidableEq a] :
    DecidableEq (Except e a) := fun x y =>
  match x, y with
  | .error u, .error v =>
    if h : u = v then .isTrue (by rw [h])
    else .isFalse (by intro hc; cases hc; exact h rfl)
  | .error _, .ok _ => .isFalse (by intro hc; cases hc)
  | .ok _, .error _ => .isFalse (by intro hc; cases hc)
  | .ok u, .ok v =>
    if h : u = v then .isTrue (by rw [h])
    else .isFalse (by intro hc; cases hc; exact h rfl)

/-- `base_patterns` of `_configure_patterns`, as (compiled) regexes. -/
def basePatterns : List (List Rpiece) :=
  [rlits "__import__",
   rlits "exec" ++ [wsStar] ++ rlits "(",
   rlits "eval" ++ [wsStar] ++ rlits "(",
   rlits "getattr" ++ [wsStar] ++ rlits "(" ++ [dotStar] ++
     rlits "__builtins__",
   rlits "globals" ++ [wsStar] ++ rlits "()",
   rlits "__builtins__",
   rlits "__globals__",
   rlits ".mro()",
   rlits ".subclasses()"]

/-- `standard_patterns`. -/
def standardPatterns : List (List Rpiece) :=
  [rlits "compile" ++ [wsStar] ++ rlits "(",
   rlits "getattr" ++ [wsStar] ++ rlits "(",
   rlits "setattr" ++ [wsStar] ++ rlits "(",
   rlits "delattr" ++ [wsStar] ++ rlits "(",
   rlits "locals" ++ [wsStar] ++ rlits "(",
   rlits "vars" ++ [wsStar] ++ rlits "(",
   rlits "dir" ++ [wsStar] ++ rlits "(",
   rlits "subprocess",
   rlits "os.system",
   rlits "os.popen",
   rlits "os.spawn",
   rlits "os.exec",
   rlits "commands.",
   rlits "importlib"]

/-- `strict_patterns`. -/
def strictPatterns : List (List Rpiece) :=
  [rlits "open" ++ [wsStar] ++ rlits "(",
   rlits "file" ++ [wsStar] ++ rlits "(",
   rlits "input" ++ [wsStar] ++ rlits "(",
   rlits "raw_input" ++ [wsStar] ++ rlits "("]

/-- `DANGEROUS_PATTERNS` for a strictness level, as configured by
`_configure_patterns`. -/
def dangerousPatterns (level : String) : List (List Rpiece) :=
  basePatterns ++
    (if level = "standard" ∨ level = "strict" ∨ level = "paranoid" then
      standardPatterns else []) ++
    (if level = "strict" ∨ level = "paranoid" then strictPatterns else [])

/-- `_get_max_length`. -/
def getMaxLength (level : String) : Nat :=
  if level = "permissive" then 50000
  else if level = "standard" then 10000
  else if level = "strict" then 5000
  else if level = "paranoid" then 2000
  else 10000

/-- The `profile_mapping` of `create_for_profile` (default `standard`). -/
def profileStrictness (profile : String) : String :=
  if profile = "plan_only" then "paranoid"
  else if profile = "restricted" then "strict"
  else if profile = "standard" then "standard"
  else if profile = "elevated" then "permissive"
  else "standard"

/-- `validate_string_input`: reject when the combined
`DANGEROUS_PATTERNS` alternation matches anywhere (the generic message
does not name the pattern), then enforce the per-level length limit. -/
def validateStringInput (level value context : String) :
    Except EngineExc String :=
  if (dangerousPatterns level).any (fun r => rxSearch r value) then
    .error (.securityError ("Security violation in " ++ context ++
      ": Potentially dangerous content detected. Pattern blocked for security. Check security profile settings."))
  else if strLen value > getMaxLength level then
    .error (.securityError ("Input too long in " ++ context ++ " (max " ++
      toString (getMaxLength level) ++ " characters for " ++ level ++
      " profile)"))
  else .ok value

/-- `dangerous_shell_patterns` of `validate_shell_command`, each paired
with its source text (the f-string interpolates the pattern itself into
the error message). -/
def shellPatterns : List (String × List Rpiece) :=
  [(";\\s*rm\\s+-rf",
    [Rpiece.once (.lit ';'), wsStar] ++ rlits "rm" ++ [wsPlus] ++
      rlits "-rf"),
   ("&&\\s*rm\\s+-rf",
    rlits "&&" ++ [wsStar] ++ rlits "rm" ++ [wsPlus] ++ rlits "-rf"),
   ("\\|\\s*sh", rlits "|" ++ [wsStar] ++ rlits "sh"),
   ("\\|\\s*bash", rlits "|" ++ [wsStar] ++ rlits "bash"),
   (">\\s*/dev/", rlits ">" ++ [wsStar] ++ rlits "/dev/"),
   ("curl.*\\|\\s*sh",
    rlits "curl" ++ [dotStar] ++ rlits "|" ++ [wsStar] ++ rlits "sh"),
   ("wget.*\\|\\s*sh",
    rlits "wget" ++ [dotStar] ++ rlits "|" ++ [wsStar] ++ rlits "sh"),
   ("\\$\\([^)]*\\)",
    rlits "$(" ++ [Rpiece.star (.ncls [')'])] ++ rlits ")"),
   ("`[^`]*`",
    [Rpiece.once (.lit (Char.ofNat 96)),
     Rpiece.star (.ncls [Char.ofNat 96]),
     Rpiece.once (.lit (Char.ofNat 96))])]

/-- `validate_shell_command`. -/
def validateShellCommand (level command : String) :
    Except EngineExc String :=
  match validateStringInput level command "shell command" with
  | .error e => .error e
  | .ok command =>
    match shellPatterns.find? (fun p => rxSearch p.2 command) with
    | some p =>
      .error (.securityError ("Dangerous shell pattern detected: " ++ p.1))
    | none => .ok command

/-- `injection_patterns` of `validate_template_content`, each paired with
its source text. -/
def injectionPatterns : List (String × List Rpiece) :=
  [("\\\x7b\\\x7b.*__.*\\\x7d\\\x7d",
    rlits "\x7b\x7b" ++ [dotStar] ++ rlits "__" ++ [dotStar] ++
      rlits "\x7d\x7d"),
   ("\\\x7b\\\x7b.*class.*\\\x7d\\\x7d",
    rlits "\x7b\x7b" ++ [dotStar] ++ rlits "class" ++ [dotStar] ++
      rlits "\x7d\x7d"),
   ("\\\x7b\\\x7b.*mro.*\\\x7d\\\x7d",
    rlits "\x7b\x7b" ++ [dotStar] ++ rlits "mro" ++ [dotStar] ++
      rlits "\x7d\x7d"),
   ("\\\x7b\\\x7b.*subclasses.*\\\x7d\\\x7d",
    rlits "\x7b\x7b" ++ [dotStar] ++ rlits "subclasses" ++ [dotStar] ++
      rlits "\x7d\x7d"),
   ("\\\x7b\\\x7b.*globals.*\\\x7d\\\x7d",
    rlits "\x7b\x7b" ++ [dotStar] ++ rlits "globals" ++ [dotStar] ++
      rlits "\x7d\x7d"),
   ("\\\x7b\\\x7b.*builtins.*\\\x7d\\\x7d",
    rlits "\x7b\x7b" ++ [dotStar] ++ rlits "builtins" ++ [dotStar] ++
      rlits "\x7d\x7d"),
   ("\\\x7b\\\x7b.*import.*\\\x7d\\\x7d",
    rlits "\x7b\x7b" ++ [dotStar] ++ rlits "import" ++ [dotStar] ++
      rlits "\x7d\x7d")]

/-- `validate_template_content`. -/
def validateTemplateContent (level template : String) :
    Except EngineExc String :=
  match validateStringInput level template "template" with
  | .error e => .error e
  | .ok template =>
    match injectionPatterns.find? (fun p => rxSearch p.2 template) with
    | some p =>
      .error (.securityError
        ("Template injection pattern detected: " ++ p.1))
    | none => .ok template

theorem listStarts_refl : ∀ l : List Char, listStarts l l = true := by
  intro l
  induction l with
  | nil => rfl
  | cons c cs ih =>
    show (c == c && listStarts cs cs) = true
    rw [ih]
    simp

theorem listHasInfix_self : ∀ b : List Char, listHasInfix b b = true := by
  intro b
  cases b with
  | nil => rfl
  | cons c cs =>
    show (listStarts (c :: cs) (c :: cs) || _) = true
    rw [listStarts_refl]
    rfl

theorem listHasInfix_append (b : List Char) :
    ∀ a, listHasInfix b (a ++ b) = true := by
  intro a
  induction a with
  | nil => simpa using listHasInfix_self b
  | cons c cs ih =>
    show (listStarts b (c :: (cs ++ b)) || listHasInfix b (cs ++ b)) = true
    rw [ih]
    simp

/-- A concatenation contains its own suffix. -/
theorem strContainsSub_append (a b : String) :
    strContainsSub (a ++ b) b = true := by
  show listHasInfix b.toList (a ++ b).toList = true
  have h : (a ++ b).toList = a.toList ++ b.toList := by
    cases a
    cases b
    rfl
  rw [h]
  exact listHasInfix_append _ _

def c5shellPat : String × List Rpiece :=
  (";\\s*rm\\s+-rf",
   [Rpiece.once (.lit ';'), wsStar] ++ rlits "rm" ++ [wsPlus] ++
     rlits "-rf")

def c5injPat : String × List Rpiece :=
  ("\\\x7b\\\x7b.*__.*\\\x7d\\\x7d",
   rlits "\x7b\x7b" ++ [dotStar] ++ rlits "__" ++ [dotStar] ++
     rlits "\x7d\x7d")

def c5e1 : EngineExc :=
  .securityError ("Security violation in step inputs: Potentially dangerous content detected. Pattern blocked for security. Check security profile settings.")

/-- C5 (amended): `validate_string_input` rejections (dangerous pattern,
oversized input) carry one of two fixed messages that never name the
matched pattern; but `validate_shell_command` and
`validate_template_content` interpolate the matched pattern's source text
into the `SecurityError` message, so those rejection messages do contain
the detection pattern. -/
theorem c5_rejection_messages (level value ctx cmd tpl : String) :
    (∀ e, validateStringInput level value ctx = .error e →
      e = .securityError ("Security violation in " ++ ctx ++
        ": Potentially dangerous content detected. Pattern blocked for security. Check security profile settings.") ∨
      e = .securityError ("Input too long in " ++ ctx ++ " (max " ++
        toString (getMaxLength level) ++ " characters for " ++ level ++
        " profile)")) ∧
    (∀ p, shellPatterns.find? (fun q => rxSearch q.2 cmd) = some p →
      validateStringInput level cmd "shell command" = .ok cmd →
      validateShellCommand level cmd =
        .error (.securityError
          ("Dangerous shell pattern detected: " ++ p.1)) ∧
      strContainsSub ("Dangerous shell pattern detected: " ++ p.1) p.1 =
        true) ∧
    (∀ p, injectionPatterns.find? (fun q => rxSearch q.2 tpl) = some p →
      validateStringInput level tpl "template" = .ok tpl →
      validateTemplateContent level tpl =
        .error (.securityError
          ("Template injection pattern detected: " ++ p.1)) ∧
      strContainsSub ("Template injection pattern detected: " ++ p.1)
        p.1 = true) := by
  refine ⟨?_, ?_, ?_⟩
  · intro e h
    unfold validateStringInput at h
    split at h
    · cases h
      exact Or.inl rfl
    · split at h
      · cases h
        exact Or.inr rfl
      · cases h
  · intro p hp hok
    constructor
    · unfold validateShellCommand
      rw [hok]
      simp only [hp]
    · exact strContainsSub_append _ _
  · intro p hp hok
    constructor
    · unfold validateTemplateContent
      rw [hok]
      simp only [hp]
    · exact strContainsSub_append _ _

theorem c5_rejection_messages_witness :
    (validateStringInput "strict" "__import__" "step inputs" =
      .error c5e1) ∧
    (c5e1 = .securityError ("Security violation in " ++ "step inputs" ++
        ": Potentially dangerous content detected. Pattern blocked for security. Check security profile settings.") ∨
      c5e1 = .securityError ("Input too long in " ++ "step inputs" ++
        " (max " ++ toString (getMaxLength "strict") ++
        " characters for " ++ "strict" ++ " profile)")) ∧
    shellPatterns.find? (fun q => rxSearch q.2 "; rm -rf /") =
      some c5shellPat ∧
    validateStringInput "strict" "; rm -rf /" "shell command" =
      .ok "; rm -rf /" ∧
    (validateShellCommand "strict" "; rm -rf /" =
        .error (.securityError
          ("Dangerous shell pattern detected: " ++ c5shellPat.1)) ∧
      strContainsSub ("Dangerous shell pattern detected: " ++
        c5shellPat.1) c5shellPat.1 = true) ∧
    injectionPatterns.find?
        (fun q => rxSearch q.2 "\x7b\x7b__x__\x7d\x7d") = some c5injPat ∧
    validateStringInput "strict" "\x7b\x7b__x__\x7d\x7d" "template" =
      .ok "\x7b\x7b__x__\x7d\x7d" ∧
    (validateTemplateContent "strict" "\x7b\x7b__x__\x7d\x7d" =
        .error (.securityError
          ("Template injection pattern detected: " ++ c5injPat.1)) ∧
      strContainsSub ("Template injection pattern detected: " ++
        c5injPat.1) c5injPat.1 = true) := by
  have hs : shellPatterns.find? (fun q => rxSearch q.2 "; rm -rf /") =
      some c5shellPat :=
    @List.find?_cons_of_pos _ (fun q => rxSearch q.2 "; rm -rf /")
      c5shellPat shellPatterns.tail (by decide)
  have hi : injectionPatterns.find?
      (fun q => rxSearch q.2 "\x7b\x7b__x__\x7d\x7d") = some c5injPat :=
    @List.find?_cons_of_pos _
      (fun q => rxSearch q.2 "\x7b\x7b__x__\x7d\x7d") c5injPat
      injectionPatterns.tail (by decide)
  exact ⟨by decide,
    (c5_rejection_messages "strict" "__import__" "step inputs"
      "; rm -rf /" "\x7b\x7b__x__\x7d\x7d").1 c5e1 (by decide),
    hs, by decide,
    (c5_rejection_messages "strict" "__import__" "step inputs"
      "; rm -rf /" "\x7b\x7b__x__\x7d\x7d").2.1 c5shellPat hs
      (by decide),
    hi, by decide,
    (c5_rejection_messages "strict" "__import__" "step inputs"
      "; rm -rf /" "\x7b\x7b__x__\x7d\x7d").2.2 c5injPat hi
      (by decide)⟩

/-- C5 counterexample: rejecting the command `; rm -rf /` raises a
`SecurityError` whose message embeds the matched detection pattern's
source text `;\s*rm\s+-rf`, contradicting the claim that rejection
messages never contain the matched pattern. -/
theorem c5_counterexample :
    validateShellCommand "strict" "; rm -rf /" =
      .error (.securityError
        "Dangerous shell pattern detected: ;\\s*rm\\s+-rf") ∧
    strContainsSub "Dangerous shell pattern detected: ;\\s*rm\\s+-rf"
      ";\\s*rm\\s+-rf" = true :=
  ⟨by decide, by decide⟩

/-! ### `SecureExpressionEvaluator` -/

def isDigitCh (c : Char) : Bool := '0' ≤ c && c ≤ '9'

def isIdentCh (c : Char) : Bool :=
  ('a' ≤ c && c ≤ 'z') || ('A' ≤ c && c ≤ 'Z') || isDigitCh c || c == '_'

def digitsVal (l : List Char) : Int :=
  l.foldl (fun acc c => acc * 10 + (Int.ofNat c.toNat - 48)) 0

def jsonEqb (a b : Json) : Bool := dumpJson a == dumpJson b

/-- Split at the first occurrence of `op`, dropping the operator. -/
def findSplit (op : List Char) : List Char → Option (List Char × List Char)
  | [] => none
  | c :: cs =>
    if listStarts op (c :: cs) then some ([], (c :: cs).drop op.length)
    else
      match findSplit op cs with
      | some (l, r) => some (c :: l, r)
      | none => none

def cmpOps : List String := ["==", "!=", ">=", "<=", ">", "<"]

def firstOp : List String → List Char → Option (String × List Char × List Char)
  | [], _ => none
  | op :: rest, cs =>
    match findSplit op.toList cs with
    | some (l, r) => some (op, l, r)
    | none => firstOp rest cs

def evalAtomM (ctx : List (String × Json)) (sRaw : List Char) :
    Except EngineExc Json :=
  let s := ((sRaw.dropWhile isSpaceCh).reverse.dropWhile isSpaceCh).reverse
  if s ≠ [] ∧ s.all isDigitCh then .ok (.int (digitsVal s))
  else if s ≠ [] ∧ s.all isIdentCh then
    match alookup (String.mk s) ctx with
    | some v => .ok v
    | none => .error (.valueError ("name not defined: " ++ String.mk s))
  else .error (.valueError "syntax error")

def applyCmpM (op : String) (a b : Json) : Except EngineExc Json :=
  if op = "==" then .ok (.bool (jsonEqb a b))
  else if op = "!=" then .ok (.bool (!jsonEqb a b))
  else
    match a, b with
    | .int x, .int y =>
      if op = ">=" then .ok (.bool (y ≤ x))
      else if op = "<=" then .ok (.bool (x ≤ y))
      else if op = ">" then .ok (.bool (y < x))
      else .ok (.bool (x < y))
    | _, _ => .error (.valueError "unsupported comparison")

/-- A model of the external `simpleeval.simple_eval` on the grammar the
specification allows — literals, variable lookup, the six binary
comparisons — raising (as the library does on a syntax error or an
undefined name) on everything else.  The library is not part of this
repository, so theorems about `evaluate_condition` treat the evaluator
as an abstract parameter and use this model only to run concrete
cases. -/
def simpleEvalModel (expr : String) (ctx : List (String × Json)) :
    Except EngineExc Json :=
  let cs := expr.toList
  match firstOp cmpOps cs with
  | some (op, l, r) =>
    match evalAtomM ctx l, evalAtomM ctx r with
    | .ok a, .ok b => applyCmpM op a b
    | .error e, _ => .error e
    | .ok _, .error e => .error e
  | none => evalAtomM ctx cs

/-- `SecureExpressionEvaluator.evaluate_condition` (simpleeval
available): strip, literal shortcuts, then `simple_eval` (the abstract
`se`); any evaluation failure is re-raised as
`SecurityError(f"Invalid expression: ...")`. -/
def evaluateCondition
    (se : String → List (String × Json) → Except EngineExc Json)
    (expression : String) (context : List (String × Json)) :
    Except EngineExc Bool :=
  let expression := trimStr expression
  if expression = "" then .ok false
  else if lowerStr expression = "true" ∨ lowerStr expression = "1" ∨
      lowerStr expression = "yes" then .ok true
  else if lowerStr expression = "false" ∨ lowerStr expression = "0" ∨
      lowerStr expression = "no" ∨ lowerStr expression = "" then .ok false
  else
    match se expression context with
    | .ok v => .ok v.truthy
    | .error _ =>
      .error (.securityError ("Invalid expression: " ++ expression))

/-- `_should_execute_step`: any evaluation failure is caught and yields
`False`. -/
def shouldExecuteStep
    (se : String → List (String × Json) → Except EngineExc Json)
    (condition : String) (context : List (String × Json)) : Bool :=
  match evaluateCondition se condition context with
  | .ok b => b
  | .error _ => false

/-! ### `SecureStepResult` and secure step execution -/

inductive ExecStatus where
  | pending : ExecStatus
  | running : ExecStatus
  | completed : ExecStatus
  | failed : ExecStatus
  | skipped : ExecStatus
  | cached : ExecStatus
  | execTimeout : ExecStatus
  | terminated : ExecStatus
deriving Repr, DecidableEq

def statusName : ExecStatus → String
  | .pending => "pending"
  | .running => "running"
  | .completed => "completed"
  | .failed => "failed"
  | .skipped => "skipped"
  | .cached => "cached"
  | .execTimeout => "timeout"
  | .terminated => "terminated"

/-- `r'(password|token|key|secret)=\S+'` of `_sanitize_outputs`. -/
def secretOutPat : List Rpiece :=
  [Rpiece.alts [rlits "password", rlits "token", rlits "key",
    rlits "secret"],
   Rpiece.once (.lit '='), nonWsPlus]

/-- `r'(password|token|key|secret)[=:]\s*\S+'` of `_sanitize_error`. -/
def secretErrPat : List Rpiece :=
  [Rpiece.alts [rlits "password", rlits "token", rlits "key",
    rlits "secret"],
   Rpiece.once (.cls ['=', ':']), wsStar, nonWsPlus]

/-- `_sanitize_outputs`: strings are redacted and truncated to 1000
characters; ints, floats and bools pass through; anything else is
`str(...)` truncated. -/
def sanitizeOutputs (outputs : List (String × Json)) :
    List (String × Json) :=
  outputs.map (fun p =>
    match p.2 with
    | .str s =>
      (p.1, Json.str (strTake (rxSubst secretOutPat "[REDACTED]" s) 1000))
    | .int n => (p.1, Json.int n)
    | .numLit s => (p.1, Json.numLit s)
    | .bool b => (p.1, Json.bool b)
    | v => (p.1, Json.str (strTake v.pyStr 1000)))

/-- `_sanitize_error`. -/
def sanitizeError (error : String) : String :=
  strTake (rxSubst secretErrPat "[REDACTED]" error) 500

/-- The observable fields of `SecureStepResult` (timestamps and shell
bookkeeping omitted). -/
structure SecResult where
  step_id : String
  status : ExecStatus
  outputs : List (String × Json) := []
  error : Option String := none
  cached : Bool := false
  cache_key : Option String := none
deriving Repr

/-- `set_completed`: unconditionally sets `COMPLETED`; a falsy (empty)
`outputs` argument leaves the stored outputs untouched. -/
def setCompleted (r : SecResult) (outputs : List (String × Json)) :
    SecResult :=
  { r with
    status := .completed
    outputs := if outputs.isEmpty then r.outputs
      else sanitizeOutputs outputs }

/-- `set_failed`. -/
def setFailed (r : SecResult) (error : String) : SecResult :=
  { r with
    status := .failed
    error := some (sanitizeError error) }

/-- `step.message or default` (`None` and `""` are falsy). -/
def orElseStr (o : Option String) (d : String) : String :=
  match o with
  | some s => if s = "" then d else s
  | none => d

/-- `_execute_assert_step`: validate the condition, evaluate it, apply
the `on_failure` policy; every raised exception is caught and recorded
via `set_failed`.  In the `continue` branch the explicit
`result.status = SKIPPED` assignment is immediately overwritten by
`set_completed`. -/
def executeAssertStep
    (se : String → List (String × Json) → Except EngineExc Json)
    (level : String) (step : Step) (context : List (String × Json))
    (result : SecResult) : SecResult :=
  let condition := (step.condition).getD ""
  match validateStringInput level condition "assertion condition" with
  | .error e => setFailed result ("Assertion evaluation error: " ++ e.msg)
  | .ok _ =>
    match evaluateCondition se condition context with
    | .error e =>
      setFailed result ("Assertion evaluation error: " ++ e.msg)
    | .ok true =>
      setCompleted result [("assertion_result", Json.bool true)]
    | .ok false =>
      if step.on_failure = "fail" then
        setFailed result
          (orElseStr step.message ("Assertion failed: " ++ condition))
      else if step.on_failure = "warn" then
        setCompleted result [("assertion_result", Json.bool false),
          ("warning", Json.str
            (orElseStr step.message ("Assertion failed: " ++ condition)))]
      else
        setCompleted { result with status := .skipped }
          [("assertion_result", Json.bool false)]

/-- An entry of `step_cache`. -/
structure CacheEntry where
  outputs : List (String × Json)
  cached_at : Int
  ttl : Int
deriving Repr

/-- `_get_cached_result`: a missing key or an expired entry
(`now - cached_at > ttl`) yields `None` (expiry also evicts the entry,
which only affects later lookups of the same already-expired key and is
not modelled). -/
def getCachedResult (now : Int) (cache : List (String × CacheEntry))
    (key : String) : Option CacheEntry :=
  match alookup key cache with
  | none => none
  | some e => if now - e.cached_at > e.ttl then none else some e

/-- Python dict assignment `d[k] = v`. -/
def setAssoc {b : Type} (k : String) (v : b) :
    List (String × b) → List (String × b)
  | [] => [(k, v)]
  | p :: ps => if p.1 = k then (k, v) :: ps else p :: setAssoc k v ps

/-- `_cache_result` (the `MAX_CACHE_ENTRIES` eviction is not modelled). -/
def cacheResult (now : Int) (cache : List (String × CacheEntry))
    (key : String) (r : SecResult) : List (String × CacheEntry) :=
  setAssoc key { outputs := r.outputs, cached_at := now, ttl := 3600 }
    cache

/-- `step.cache.get('enabled', True)` under Python truthiness. -/
def cacheEnabled (step : Step) : Bool :=
  match alookup "enabled" step.cache with
  | none => true
  | some v => v.truthy

/-- `_execute_step_securely`.  `shellExec` / `templateExec` stand for
`_execute_shell_step` / `_execute_template_step` (subprocess and file
system); an `Except.error` models an exception escaping them, which the
surrounding handler records via `set_failed`.  Returns the result, the
updated cache, and whether a step executor was invoked (`False` exactly
on a cache hit or an unsupported type). -/
def executeStepSecurely
    (se : String → List (String × Json) → Except EngineExc Json)
    (shellExec templateExec :
      Step → List (String × Json) → SecResult → Except EngineExc SecResult)
    (level : String) (now : Int) (cache : List (String × CacheEntry))
    (step : Step) (context : List (String × Json)) :
    SecResult × List (String × CacheEntry) × Bool :=
  let result : SecResult := { step_id := step.id, status := .running }
  let hit : Option (String × CacheEntry) :=
    if cacheEnabled step then
      match getCachedResult now cache
        (engineGenerateCacheKey step context) with
      | some entry => some (engineGenerateCacheKey step context, entry)
      | none => none
    else none
  match hit with
  | some (ck, entry) =>
    (setCompleted
      { result with
        cached := true
        cache_key := some ck
        outputs := entry.outputs } [], cache, false)
  | none =>
    let disp : Except EngineExc SecResult × Bool :=
      if step.type = "shell" then (shellExec step context result, true)
      else if step.type = "assert" then
        (.ok (executeAssertStep se level step context result), true)
      else if step.type = "template" then
        (templateExec step context result, true)
      else
        (.error (.securityError
          ("Unsupported step type: " ++ step.type)), false)
    match disp.1 with
    | .ok r =>
      if r.status = ExecStatus.completed ∧ cacheEnabled step then
        (r, cacheResult now cache (engineGenerateCacheKey step context) r,
          disp.2)
      else (r, cache, disp.2)
    | .error e => (setFailed result e.msg, cache, disp.2)

def resultToJson (r : SecResult) : Json :=
  Json.obj [("step_id", Json.str r.step_id),
    ("status", Json.str (statusName r.status)),
    ("outputs", Json.obj r.outputs), ("error", optJsonStr r.error),
    ("cached", Json.bool r.cached),
    ("cache_key", optJsonStr r.cache_key)]

/-- The step loop of `_execute_workflow_steps` over the steps in
execution order: a falsy `when` or a true `when` executes the step; a
false `when` records a skipped-then-completed result; a FAILED result
raises `Exception(f"Step ... failed: ...")`, halting the loop (returned
as the final `Option String`).  `context['steps']` accumulates the
result records. -/
def goSteps
    (se : String → List (String × Json) → Except EngineExc Json)
    (shellExec templateExec :
      Step → List (String × Json) → SecResult → Except EngineExc SecResult)
    (level : String) (now : Int) :
    List Step → List (String × Json) → List (String × CacheEntry) →
    List (String × Json) → List (String × SecResult) →
    List (String × SecResult) × List (String × CacheEntry) × Option String
  | [], _, cache, _, acc => (acc, cache, none)
  | step :: rest, context, cache, stepsCtx, acc =>
    let skipGate : Bool :=
      match step.when with
      | some w => w ≠ "" && !shouldExecuteStep se w context
      | none => false
    if skipGate then
      let r := setCompleted { step_id := step.id, status := .skipped } []
      let stepsCtx2 := setAssoc step.id (resultToJson r) stepsCtx
      goSteps se shellExec templateExec level now rest
        (setAssoc "steps" (Json.obj stepsCtx2) context) cache stepsCtx2
        (acc ++ [(step.id, r)])
    else
      match executeStepSecurely se shellExec templateExec level now cache
        step context with
      | (r, cache2, _) =>
        let stepsCtx2 := setAssoc step.id (resultToJson r) stepsCtx
        let acc2 := acc ++ [(step.id, r)]
        if r.status = ExecStatus.failed then
          (acc2, cache2, some ("Step " ++ step.id ++ " failed: " ++
            (match r.error with
             | some msg => msg
             | none => "None")))
        else
          goSteps se shellExec templateExec level now rest
            (setAssoc "steps" (Json.obj stepsCtx2) context) cache2
            stepsCtx2 acc2

/-- The `SecurityContext` dataclass (audit trail and resource limits
omitted); `permissions` is the permission set. -/
structure SecurityContext where
  user_id : String
  permissions : List String
  security_profile : String
deriving Repr

/-- `SecurityContext.has_permission`:
`permission in self.permissions or "admin" in self.permissions`. -/
def hasPermission (sc : SecurityContext) (permission : String) : Bool :=
  sc.permissions.contains permission || sc.permissions.contains "admin"

theorem lowerStr_ne_empty {s : String} (h : s ≠ "") : lowerStr s ≠ "" := by
  cases s with
  | mk data =>
    cases data with
    | nil => exact absurd rfl h
    | cons c cs =>
      intro h2
      have h3 : (lowerStr (String.mk (c :: cs))).data = [] :=
        congrArg String.data h2
      simp [lowerStr] at h3

/-- C10: a `SecurityContext` whose permission set contains `"admin"`
satisfies `has_permission` for every requested permission, in particular
for the engine's three gates (`workflow.execute`, `shell.execute`,
`file.write`). -/
theorem c10_admin_has_all_permissions (sc : SecurityContext) (p : String)
    (h : "admin" ∈ sc.permissions) :
    hasPermission sc p = true ∧
    hasPermission sc "workflow.execute" = true ∧
    hasPermission sc "shell.execute" = true ∧
    hasPermission sc "file.write" = true := by
  have hadm : sc.permissions.contains "admin" = true :=
    List.elem_eq_true_of_mem h
  have key : ∀ q : String, hasPermission sc q = true := by
    intro q
    show (sc.permissions.contains q || sc.permissions.contains "admin") =
      true
    rw [hadm]
    exact Bool.or_true _
  exact ⟨key p, key "workflow.execute", key "shell.execute",
    key "file.write"⟩

def c10sc : SecurityContext :=
  { user_id := "ops", permissions := ["admin"],
    security_profile := "standard" }

theorem c10_admin_has_all_permissions_witness :
    "admin" ∈ c10sc.permissions ∧
    (hasPermission c10sc "cache.admin" = true ∧
     hasPermission c10sc "workflow.execute" = true ∧
     hasPermission c10sc "shell.execute" = true ∧
     hasPermission c10sc "file.write" = true) :=
  ⟨by decide, c10_admin_has_all_permissions c10sc "cache.admin"
    (by decide)⟩

def c6core : StepCore :=
  { id := "check", type := "assert", condition := some "@@@" }

/-- C6 (amended): on an expression outside the evaluable grammar,
`evaluate_condition` does not return `False` — it raises
`SecurityError(f"Invalid expression: ...")`.  The claimed
return-`False` behavior holds only of the `_should_execute_step`
wrapper, which catches the exception; for an `assert` step the exception
is caught by `_execute_assert_step` and recorded as FAILED (matching the
claim's assert clause). -/
theorem c6_unparseable_condition
    (se : String → List (String × Json) → Except EngineExc Json)
    (expr : String) (ctx : List (String × Json)) (e : EngineExc)
    (level : String) (c : StepCore) (ts es : List Step)
    (hse : se (trimStr expr) ctx = .error e)
    (hne : trimStr expr ≠ "")
    (h1 : lowerStr (trimStr expr) ≠ "true")
    (h2 : lowerStr (trimStr expr) ≠ "1")
    (h3 : lowerStr (trimStr expr) ≠ "yes")
    (h4 : lowerStr (trimStr expr) ≠ "false")
    (h5 : lowerStr (trimStr expr) ≠ "0")
    (h6 : lowerStr (trimStr expr) ≠ "no")
    (hcond : c.condition = some expr)
    (hval : validateStringInput level expr "assertion condition" =
      .ok expr) :
    evaluateCondition se expr ctx =
      .error (.securityError ("Invalid expression: " ++ trimStr expr)) ∧
    shouldExecuteStep se expr ctx = false ∧
    (executeAssertStep se level (.mk c ts es) ctx
      { step_id := c.id, status := ExecStatus.running }).status =
      ExecStatus.failed := by
  have h7 : lowerStr (trimStr expr) ≠ "" := lowerStr_ne_empty hne
  have hev : evaluateCondition se expr ctx =
      .error (.securityError ("Invalid expression: " ++ trimStr expr)) := by
    simp only [evaluateCondition]
    rw [if_neg hne,
      if_neg (fun hor => hor.elim h1 (fun hx => hx.elim h2 h3)),
      if_neg (fun hor => hor.elim h4
        (fun hx => hx.elim h5 (fun hy => hy.elim h6 h7))),
      hse]
  refine ⟨hev, ?_, ?_⟩
  · simp only [shouldExecuteStep, hev]
  · simp only [executeAssertStep, Step.condition, Step.core, hcond,
      Option.getD_some, hval, hev]
    simp [setFailed]

theorem c6_unparseable_condition_witness :
    simpleEvalModel (trimStr "@@@") [] =
      .error (.valueError "syntax error") ∧
    trimStr "@@@" ≠ "" ∧
    lowerStr (trimStr "@@@") ≠ "true" ∧
    lowerStr (trimStr "@@@") ≠ "false" ∧
    c6core.condition = some "@@@" ∧
    validateStringInput "standard" "@@@" "assertion condition" =
      .ok "@@@" ∧
    (evaluateCondition simpleEvalModel "@@@" [] =
      .error (.securityError ("Invalid expression: " ++ trimStr "@@@")) ∧
    shouldExecuteStep simpleEvalModel "@@@" [] = false ∧
    (executeAssertStep simpleEvalModel "standard" (.mk c6core [] []) []
      { step_id := c6core.id, status := ExecStatus.running }).status =
      ExecStatus.failed) :=
  ⟨by exact rfl, by decide, by decide, by decide, rfl, by decide,
   c6_unparseable_condition simpleEvalModel "@@@" []
     (.valueError "syntax error") "standard" c6core [] [] (by exact rfl)
     (by decide) (by decide) (by decide) (by decide) (by decide)
     (by decide) (by decide) rfl (by decide)⟩

/-- C6 counterexample: `evaluate_condition` on an unparseable expression
raises `SecurityError` instead of returning `False`; only the
`_should_execute_step` wrapper yields `False`. -/
theorem c6_counterexample :
    evaluateCondition simpleEvalModel "@@@" [] =
      .error (.securityError "Invalid expression: @@@") ∧
    shouldExecuteStep simpleEvalModel "@@@" [] = false :=
  ⟨by decide, by decide⟩

/-- A fresh-cache-hit run of `_execute_step_securely`, fully computed:
`set_completed()` (with no outputs) keeps the cached outputs but sets
`COMPLETED`. -/
theorem execStepHit
    (se : String → List (String × Json) → Except EngineExc Json)
    (shellExec templateExec :
      Step → List (String × Json) → SecResult → Except EngineExc SecResult)
    (level : String) (now : Int) (cache : List (String × CacheEntry))
    (step : Step) (context : List (String × Json)) (entry : CacheEntry)
    (hen : cacheEnabled step = true)
    (hhit : getCachedResult now cache
      (engineGenerateCacheKey step context) = some entry) :
    executeStepSecurely se shellExec templateExec level now cache step
      context =
    ({ step_id := step.id, status := ExecStatus.completed,
       outputs := entry.outputs, error := none, cached := true,
       cache_key := some (engineGenerateCacheKey step context) },
     cache, false) := by
  simp only [executeStepSecurely, hen, hhit]
  simp [setCompleted]

/-- C3 (amended): an unexpired cache hit for a cache-enabled step yields
a result with `cached = true`, the stored cache key and the cached
outputs, and invokes no step executor — but its recorded status is
`COMPLETED` (the `set_completed()` call), not `CACHED`. -/
theorem c3_cache_hit
    (se : String → List (String × Json) → Except EngineExc Json)
    (shellExec templateExec :
      Step → List (String × Json) → SecResult → Except EngineExc SecResult)
    (level : String) (now : Int) (cache : List (String × CacheEntry))
    (step : Step) (context : List (String × Json)) (entry : CacheEntry)
    (hen : cacheEnabled step = true)
    (hhit : getCachedResult now cache
      (engineGenerateCacheKey step context) = some entry) :
    executeStepSecurely se shellExec templateExec level now cache step
      context =
    ({ step_id := step.id, status := ExecStatus.completed,
       outputs := entry.outputs, error := none, cached := true,
       cache_key := some (engineGenerateCacheKey step context) },
     cache, false) ∧
    (executeStepSecurely se shellExec templateExec level now cache step
      context).1.status ≠ ExecStatus.cached := by
  have h := execStepHit se shellExec templateExec level now cache step
    context entry hen hhit
  refine ⟨h, ?_⟩
  rw [h]
  intro hc
  cases hc

def c3step : Step :=
  .mk { id := "build", type := "shell", command := some "make" } [] []

def c3ctx : List (String × Json) :=
  [("inputs", Json.obj [("target", Json.str "all")])]

def c3entry : CacheEntry :=
  { outputs := [("stdout", Json.str "ok")], cached_at := 0, ttl := 3600 }

def c3key : String := engineGenerateCacheKey c3step c3ctx

def c3cache : List (String × CacheEntry) := [(c3key, c3entry)]

def c3execStub :
    Step → List (String × Json) → SecResult → Except EngineExc SecResult :=
  fun _ _ r => .ok r

theorem alookup_cons_self {b : Type} (k : String) (v : b)
    (rest : List (String × b)) : alookup k ((k, v) :: rest) = some v := by
  show (if k = k then some v else alookup k rest) = some v
  rw [if_pos rfl]

theorem getCachedResult_of_fresh (now : Int)
    (cache : List (String × CacheEntry)) (k : String) (e : CacheEntry)
    (hl : alookup k cache = some e)
    (httl : ¬ now - e.cached_at > e.ttl) :
    getCachedResult now cache k = some e := by
  unfold getCachedResult
  rw [hl]
  show (if now - e.cached_at > e.ttl then none else some e) = some e
  rw [if_neg httl]

theorem c3_alookup : alookup c3key c3cache = some c3entry :=
  alookup_cons_self c3key c3entry []

theorem c3_hit : getCachedResult 100 c3cache c3key = some c3entry :=
  getCachedResult_of_fresh 100 c3cache c3key c3entry c3_alookup
    (by decide)

theorem c3_cache_hit_witness :
    cacheEnabled c3step = true ∧
    getCachedResult 100 c3cache (engineGenerateCacheKey c3step c3ctx) =
      some c3entry ∧
    (executeStepSecurely simpleEvalModel c3execStub c3execStub "standard"
      100 c3cache c3step c3ctx =
    ({ step_id := c3step.id, status := ExecStatus.completed,
       outputs := c3entry.outputs, error := none, cached := true,
       cache_key := some (engineGenerateCacheKey c3step c3ctx) },
     c3cache, false) ∧
    (executeStepSecurely simpleEvalModel c3execStub c3execStub "standard"
      100 c3cache c3step c3ctx).1.status ≠ ExecStatus.cached) :=
  ⟨rfl, c3_hit,
   c3_cache_hit simpleEvalModel c3execStub c3execStub "standard" 100
     c3cache c3step c3ctx c3entry rfl c3_hit⟩

/-- C3 counterexample: on a concrete unexpired cache hit the recorded
status is `COMPLETED`, not the claimed `CACHED`, even though
`cached = true`, the cached outputs are returned and no executor is
invoked. -/
theorem c3_counterexample :
    (executeStepSecurely simpleEvalModel c3execStub c3execStub "standard"
      100 c3cache c3step c3ctx).1.status = ExecStatus.completed ∧
    (executeStepSecurely simpleEvalModel c3execStub c3execStub "standard"
      100 c3cache c3step c3ctx).1.status ≠ ExecStatus.cached ∧
    (executeStepSecurely simpleEvalModel c3execStub c3execStub "standard"
      100 c3cache c3step c3ctx).1.cached = true ∧
    (executeStepSecurely simpleEvalModel c3execStub c3execStub "standard"
      100 c3cache c3step c3ctx).2.2 = false := by
  have h := execStepHit simpleEvalModel c3execStub c3execStub "standard"
    100 c3cache c3step c3ctx c3entry rfl c3_hit
  rw [h]
  exact ⟨rfl, by decide, rfl, rfl⟩

/-- `evaluate_condition` on the literal `"true"` short-circuits to
`True` before any evaluator runs. -/
theorem evalCond_true
    (se : String → List (String × Json) → Except EngineExc Json)
    (ctx : List (String × Json)) :
    evaluateCondition se "true" ctx = .ok true := by
  simp only [evaluateCondition]
  rw [if_neg (by decide : ¬ trimStr "true" = ""),
    if_pos (Or.inl (by decide : lowerStr (trimStr "true") = "true"))]

/-- The second follow-up step used to witness that execution proceeds
past a `continue` assert: an always-true assertion with caching
disabled. -/
def c4next : Step :=
  .mk { id := "after", type := "assert", condition := some "true",
        cache := [("enabled", Json.bool false)] } [] []

/-- A false assertion applies the `on_failure` policy. -/
theorem assertStep_false_policy
    (se : String → List (String × Json) → Except EngineExc Json)
    (level : String) (s : Step) (ctx : List (String × Json))
    (cond : String) (r0 : SecResult)
    (hc : Step.condition s = some cond)
    (hval : validateStringInput level cond "assertion condition" =
      .ok cond)
    (hev : evaluateCondition se cond ctx = .ok false) :
    executeAssertStep se level s ctx r0 =
      (if Step.on_failure s = "fail" then
        setFailed r0
          (orElseStr (Step.message s) ("Assertion failed: " ++ cond))
      else if Step.on_failure s = "warn" then
        setCompleted r0 [("assertion_result", Json.bool false),
          ("warning", Json.str
            (orElseStr (Step.message s) ("Assertion failed: " ++ cond)))]
      else setCompleted { r0 with status := ExecStatus.skipped }
        [("assertion_result", Json.bool false)]) := by
  simp only [executeAssertStep, hc, Option.getD_some, hval, hev]

/-- A true assertion completes with `assertion_result = True`. -/
theorem assertStep_true_ok
    (se : String → List (String × Json) → Except EngineExc Json)
    (level : String) (s : Step) (ctx : List (String × Json))
    (cond : String) (r0 : SecResult)
    (hc : Step.condition s = some cond)
    (hval : validateStringInput level cond "assertion condition" =
      .ok cond)
    (hev : evaluateCondition se cond ctx = .ok true) :
    executeAssertStep se level s ctx r0 =
      setCompleted r0 [("assertion_result", Json.bool true)] := by
  simp only [executeAssertStep, hc, Option.getD_some, hval, hev]

/-- With caching disabled, `_execute_step_securely` on an assert step is
exactly `_execute_assert_step` (and the executor is invoked). -/
theorem execStep_nocache_assert
    (se : String → List (String × Json) → Except EngineExc Json)
    (shellExec templateExec :
      Step → List (String × Json) → SecResult → Except EngineExc SecResult)
    (level : String) (now : Int) (cache : List (String × CacheEntry))
    (s : Step) (ctx : List (String × Json))
    (hty : Step.type s = "assert") (hce : cacheEnabled s = false) :
    executeStepSecurely se shellExec templateExec level now cache s ctx =
      (executeAssertStep se level s ctx
        { step_id := Step.id s, status := ExecStatus.running },
       cache, true) := by
  simp only [executeStepSecurely]
  rw [hce, hty]
  simp

/-- With caching disabled, the cached-branch of the step-cache write is
skipped too; `cacheEnabled s = false` makes the conjunction false. -/
theorem cacheEnabled_of_disabled (s : Step)
    (hc : Step.cache s = [("enabled", Json.bool false)]) :
    cacheEnabled s = false := by
  simp [cacheEnabled, hc, alookup, Json.truthy]

/-- Unfolding the step loop when a step with no `when` gate fails: the
loop halts with the failure message. -/
theorem goSteps_cons_failed
    (se : String → List (String × Json) → Except EngineExc Json)
    (shellExec templateExec :
      Step → List (String × Json) → SecResult → Except EngineExc SecResult)
    (level : String) (now : Int) (step : Step) (rest : List Step)
    (ctx : List (String × Json)) (cache : List (String × CacheEntry))
    (stepsCtx : List (String × Json)) (acc : List (String × SecResult))
    (r : SecResult) (cache2 : List (String × CacheEntry)) (b : Bool)
    (hw : Step.when step = none)
    (hx : executeStepSecurely se shellExec templateExec level now cache
      step ctx = (r, cache2, b))
    (hst : r.status = ExecStatus.failed) :
    goSteps se shellExec templateExec level now (step :: rest) ctx cache
      stepsCtx acc =
    (acc ++ [(Step.id step, r)], cache2,
     some ("Step " ++ Step.id step ++ " failed: " ++
       (match r.error with
        | some msg => msg
        | none => "None"))) := by
  simp only [goSteps, hw, hx, hst]
  simp

/-- Unfolding the step loop when a step with no `when` gate completes:
the loop records the result and continues. -/
theorem goSteps_cons_ok
    (se : String → List (String × Json) → Except EngineExc Json)
    (shellExec templateExec :
      Step → List (String × Json) → SecResult → Except EngineExc SecResult)
    (level : String) (now : Int) (step : Step) (rest : List Step)
    (ctx : List (String × Json)) (cache : List (String × CacheEntry))
    (stepsCtx : List (String × Json)) (acc : List (String × SecResult))
    (r : SecResult) (cache2 : List (String × CacheEntry)) (b : Bool)
    (hw : Step.when step = none)
    (hx : executeStepSecurely se shellExec templateExec level now cache
      step ctx = (r, cache2, b))
    (hst : r.status = ExecStatus.completed) :
    goSteps se shellExec templateExec level now (step :: rest) ctx cache
      stepsCtx acc =
    goSteps se shellExec templateExec level now rest
      (setAssoc "steps"
        (Json.obj (setAssoc (Step.id step) (resultToJson r) stepsCtx))
        ctx)
      cache2 (setAssoc (Step.id step) (resultToJson r) stepsCtx)
      (acc ++ [(Step.id step, r)]) := by
  have hnf : ¬ r.status = ExecStatus.failed := by
    rw [hst]
    intro h
    cases h
  simp only [goSteps, hw, hx]
  simp [hnf]

/-- C4: behavior of a false assertion under the three `on_failure`
policies.  `fail` and `warn` match the claim (FAILED and halt;
COMPLETED with a warning output).  For `continue` the explicit
`result.status = ExecutionStatus.SKIPPED` assignment is immediately
clobbered by `set_completed()`, so the recorded status is COMPLETED,
not the claimed SKIPPED — execution does proceed to the next step. -/
theorem c4_assert_on_failure
    (se : String → List (String × Json) → Except EngineExc Json)
    (shellExec templateExec :
      Step → List (String × Json) → SecResult → Except EngineExc SecResult)
    (level : String) (now : Int) (c : StepCore)
    (ctx : List (String × Json)) (cond : String)
    (htype : c.type = "assert")
    (hwhen : c.when = none)
    (hcond : c.condition = some cond)
    (hcache : c.cache = [("enabled", Json.bool false)])
    (hval : validateStringInput level cond "assertion condition" =
      .ok cond)
    (hev : evaluateCondition se cond ctx = .ok false)
    (hvalt : validateStringInput level "true" "assertion condition" =
      .ok "true") :
    (executeAssertStep se level (.mk { c with on_failure := "fail" } [] [])
      ctx { step_id := c.id, status := ExecStatus.running }).status =
      ExecStatus.failed ∧
    ((goSteps se shellExec templateExec level now
      [.mk { c with on_failure := "fail" } [] [], c4next] ctx [] []
      []).1.map Prod.fst = [c.id] ∧
     ((goSteps se shellExec templateExec level now
      [.mk { c with on_failure := "fail" } [] [], c4next] ctx [] []
      []).2.2).isSome = true) ∧
    ((executeAssertStep se level (.mk { c with on_failure := "warn" } [] [])
      ctx { step_id := c.id, status := ExecStatus.running }).status =
      ExecStatus.completed ∧
     (executeAssertStep se level (.mk { c with on_failure := "warn" } [] [])
      ctx { step_id := c.id, status := ExecStatus.running }).outputs =
      sanitizeOutputs [("assertion_result", Json.bool false),
        ("warning", Json.str
          (orElseStr c.message ("Assertion failed: " ++ cond)))]) ∧
    ((executeAssertStep se level
      (.mk { c with on_failure := "continue" } [] []) ctx
      { step_id := c.id, status := ExecStatus.running }).status =
      ExecStatus.completed ∧
     (executeAssertStep se level
      (.mk { c with on_failure := "continue" } [] []) ctx
      { step_id := c.id, status := ExecStatus.running }).status ≠
      ExecStatus.skipped ∧
     (goSteps se shellExec templateExec level now
      [.mk { c with on_failure := "continue" } [] [], c4next] ctx [] []
      []).1.map Prod.fst = [c.id, "after"] ∧
     (goSteps se shellExec templateExec level now
      [.mk { c with on_failure := "continue" } [] [], c4next] ctx [] []
      []).2.2 = none) := by
  have hpol : ∀ onf : String,
      executeAssertStep se level (.mk { c with on_failure := onf } [] [])
        ctx { step_id := c.id, status := ExecStatus.running } =
      (if onf = "fail" then
        setFailed { step_id := c.id, status := ExecStatus.running }
          (orElseStr c.message ("Assertion failed: " ++ cond))
      else if onf = "warn" then
        setCompleted { step_id := c.id, status := ExecStatus.running }
          [("assertion_result", Json.bool false),
           ("warning", Json.str
             (orElseStr c.message ("Assertion failed: " ++ cond)))]
      else setCompleted { step_id := c.id, status := ExecStatus.skipped }
        [("assertion_result", Json.bool false)]) := by
    intro onf
    exact assertStep_false_policy se level
      (.mk { c with on_failure := onf } [] []) ctx cond
      { step_id := c.id, status := ExecStatus.running } hcond hval hev
  have hfail := hpol "fail"
  rw [if_pos rfl] at hfail
  have hwarn := hpol "warn"
  rw [if_neg (by decide), if_pos rfl] at hwarn
  have hcont := hpol "continue"
  rw [if_neg (by decide), if_neg (by decide)] at hcont
  have hce : ∀ onf : String,
      cacheEnabled (.mk { c with on_failure := onf } [] []) = false :=
    fun onf =>
      cacheEnabled_of_disabled (.mk { c with on_failure := onf } [] [])
        hcache
  have hstep : ∀ onf : String, executeStepSecurely se shellExec
      templateExec level now [] (.mk { c with on_failure := onf } [] [])
      ctx =
      (executeAssertStep se level (.mk { c with on_failure := onf } [] [])
        ctx { step_id := c.id, status := ExecStatus.running }, [],
       true) :=
    fun onf =>
      execStep_nocache_assert se shellExec templateExec level now []
        (.mk { c with on_failure := onf } [] []) ctx htype (hce onf)
  have hcen : cacheEnabled c4next = false :=
    cacheEnabled_of_disabled c4next rfl
  have hnext : ∀ (ctx2 : List (String × Json))
      (cache2 : List (String × CacheEntry)),
      executeStepSecurely se shellExec templateExec level now cache2
        c4next ctx2 =
      (setCompleted { step_id := "after", status := ExecStatus.running }
        [("assertion_result", Json.bool true)], cache2, true) := by
    intro ctx2 cache2
    rw [execStep_nocache_assert se shellExec templateExec level now cache2
      c4next ctx2 rfl hcen]
    rw [show Step.id c4next = "after" from rfl]
    rw [assertStep_true_ok se level c4next ctx2 "true"
      { step_id := "after", status := ExecStatus.running } rfl hvalt
      (evalCond_true se ctx2)]
  have hx1 := hstep "fail"
  rw [hfail] at hx1
  have hg1 := goSteps_cons_failed se shellExec templateExec level now
    (.mk { c with on_failure := "fail" } [] []) [c4next] ctx [] [] []
    _ _ _ hwhen hx1 (by simp [setFailed])
  have hx3 := hstep "continue"
  rw [hcont] at hx3
  have hg3 := goSteps_cons_ok se shellExec templateExec level now
    (.mk { c with on_failure := "continue" } [] []) [c4next] ctx [] [] []
    _ _ _ hwhen hx3 (by simp [setCompleted])
  have hg4 := goSteps_cons_ok se shellExec templateExec level now c4next
    []
    (setAssoc "steps"
      (Json.obj (setAssoc
        (Step.id (.mk { c with on_failure := "continue" } [] []))
        (resultToJson (setCompleted
          { step_id := c.id, status := ExecStatus.skipped }
          [("assertion_result", Json.bool false)])) []))
      ctx)
    [] (setAssoc (Step.id (.mk { c with on_failure := "continue" } [] []))
      (resultToJson (setCompleted
        { step_id := c.id, status := ExecStatus.skipped }
        [("assertion_result", Json.bool false)])) [])
    [((.mk { c with on_failure := "continue" } [] [] : Step).id,
      setCompleted { step_id := c.id, status := ExecStatus.skipped }
        [("assertion_result", Json.bool false)])]
    _ _ _ rfl (hnext _ _) (by simp [setCompleted])
  refine ⟨(by rw [hfail]; rfl), ⟨?_, ?_⟩, ⟨(by rw [hwarn]; rfl), ?_⟩,
    ⟨(by rw [hcont]; rfl), (by rw [hcont]; intro hx; cases hx), ?_, ?_⟩⟩
  · rw [hg1]
    simp [Step.id, Step.core]
  · rw [hg1]
    rfl
  · rw [hwarn]
    simp [setCompleted]
  · rw [hg3]
    simp only [List.nil_append]
    rw [hg4]
    simp [goSteps, Step.id, Step.core, c4next]
  · rw [hg3]
    simp only [List.nil_append]
    rw [hg4]
    simp [goSteps]

def c4core : StepCore :=
  { id := "gate", type := "assert", condition := some "1 == 2",
    cache := [("enabled", Json.bool false)] }

def c4stub :
    Step → List (String × Json) → SecResult → Except EngineExc SecResult :=
  fun _ _ r => .ok r

theorem c4_assert_on_failure_witness :
    (c4core.type = "assert" ∧ c4core.when = none ∧
     c4core.condition = some "1 == 2" ∧
     c4core.cache = [("enabled", Json.bool false)] ∧
     validateStringInput "standard" "1 == 2" "assertion condition" =
       .ok "1 == 2" ∧
     evaluateCondition simpleEvalModel "1 == 2" [] = .ok false ∧
     validateStringInput "standard" "true" "assertion condition" =
       .ok "true") ∧
    ((executeAssertStep simpleEvalModel "standard"
      (.mk { c4core with on_failure := "fail" } [] [])
      [] { step_id := c4core.id, status := ExecStatus.running }).status =
      ExecStatus.failed ∧
    ((goSteps simpleEvalModel c4stub c4stub "standard" 0
      [.mk { c4core with on_failure := "fail" } [] [], c4next] [] [] []
      []).1.map Prod.fst = [c4core.id] ∧
     ((goSteps simpleEvalModel c4stub c4stub "standard" 0
      [.mk { c4core with on_failure := "fail" } [] [], c4next] [] [] []
      []).2.2).isSome = true) ∧
    ((executeAssertStep simpleEvalModel "standard"
      (.mk { c4core with on_failure := "warn" } [] [])
      [] { step_id := c4core.id, status := ExecStatus.running }).status =
      ExecStatus.completed ∧
     (executeAssertStep simpleEvalModel "standard"
      (.mk { c4core with on_failure := "warn" } [] [])
      [] { step_id := c4core.id, status := ExecStatus.running }).outputs =
      sanitizeOutputs [("assertion_result", Json.bool false),
        ("warning", Json.str
          (orElseStr c4core.message ("Assertion failed: " ++ "1 == 2")))]) ∧
    ((executeAssertStep simpleEvalModel "standard"
      (.mk { c4core with on_failure := "continue" } [] []) []
      { step_id := c4core.id, status := ExecStatus.running }).status =
      ExecStatus.completed ∧
     (executeAssertStep simpleEvalModel "standard"
      (.mk { c4core with on_failure := "continue" } [] []) []
      { step_id := c4core.id, status := ExecStatus.running }).status ≠
      ExecStatus.skipped ∧
     (goSteps simpleEvalModel c4stub c4stub "standard" 0
      [.mk { c4core with on_failure := "continue" } [] [], c4next] [] []
      [] []).1.map Prod.fst = [c4core.id, "after"] ∧
     (goSteps simpleEvalModel c4stub c4stub "standard" 0
      [.mk { c4core with on_failure := "continue" } [] [], c4next] [] []
      [] []).2.2 = none)) :=
  ⟨⟨rfl, rfl, rfl, rfl, by decide, by decide, by decide⟩,
   c4_assert_on_failure simpleEvalModel c4stub c4stub "standard" 0 c4core
     [] "1 == 2" rfl rfl rfl rfl (by decide) (by decide) (by decide)⟩

end WorkflowSpec
